import Mathlib

/-!
Verification development for the Rozee.pk job-scraper repository.

The repository contains several near-duplicate crawler variants.  The
definitions below are shallow embeddings of the pure helper functions and of
the crawl-driver request handlers of the variants that the checked claims
refer to:

* `toAbsPW`, `validateJobItem`, `extractJobIdFromUrl`, `cleanText`,
  `htmlToText`, `normalizeLocation`, `buildNextPageUrl` and the Playwright
  request handler (`pwStep` / `pwRun`) come from the first variant of
  `src/main.js` (the Playwright crawler).
* `toAbsCh` and the Cheerio request handler (`chStep` / `chRun`) come from
  the second variant of `src/main.js` (the CheerioCrawler).
* `isWithinDateFilter` comes from the HTTP-only variants (`part_001`,
  `part_005`, which contain the identical function).

JavaScript strings are modelled as Lean `String`, absent/`null`/`undefined`
values as `Option String`, and the in-browser / in-DOM extraction results
(the output of `page.evaluate` and of the cheerio selector calls) as records
supplied by an abstract `World`, since the DOM query engine is an external
collaborator of the code under test.
-/

/-- Character class of the JavaScript regular-expression `\s` (the members
that matter for the scraper: space, tab, newline, carriage return, form
feed, vertical tab, and the no-break space). -/
def isJsWs (c : Char) : Bool :=
  c = ' ' || c = '\t' || c = '\n' || c = '\r' || c = '\x0b' || c = '\x0c' || c = '\u00A0'

/-- JavaScript truthiness of a possibly-absent string: `undefined`, `null`
and the empty string are falsy. -/
def jsFalsy : Option String → Bool
  | none => true
  | some s => s = ""

/-- JavaScript `a || b` on two strings (the empty string is falsy). -/
def jsOr (a b : String) : String :=
  if a = "" then b else a

/-- Model of `String.prototype.trim` restricted to the whitespace class
`isJsWs`: drop whitespace from both ends. -/
def jsTrimL (l : List Char) : List Char :=
  ((l.dropWhile isJsWs).reverse.dropWhile isJsWs).reverse

def jsTrim (s : String) : String :=
  ⟨jsTrimL s.data⟩

/-- Model of `.replace(/\s+/g, ' ')`: every maximal run of whitespace
characters becomes a single space.  The flag records whether the previous
character was part of a whitespace run (so only the first character of a
run emits the space). -/
def collapseWsAux (prevWs : Bool) : List Char → List Char
  | [] => []
  | c :: r =>
    if isJsWs c then
      if prevWs then collapseWsAux true r else ' ' :: collapseWsAux true r
    else c :: collapseWsAux false r

def collapseWs (l : List Char) : List Char :=
  collapseWsAux false l

/-- `cleanText` from the Playwright variant of `src/main.js` (lines 15-21)
restricted to string inputs: collapse whitespace runs to single spaces,
replace no-break spaces by spaces, trim. -/
def cleanTextS (s : String) : String :=
  jsTrim ⟨(collapseWs s.data).map (fun c => if c = '\u00A0' then ' ' else c)⟩

/-- `cleanText` from the Playwright variant of `src/main.js` (lines 15-21):
`if (!text) return ''` then collapse / replace / trim. -/
def cleanText (text : Option String) : String :=
  if jsFalsy text then "" else cleanTextS (text.getD "")

/-- Substring test: `sub` occurs somewhere in `l` (model of
`String.prototype.includes`). -/
def containsSub (l sub : List Char) : Bool :=
  match l with
  | [] => sub.isEmpty
  | _ :: r => sub.isPrefixOf l || containsSub r sub

/-- Model of the WHATWG `URL` record for the http(s) URLs the scraper deals
with.  `path` is the pathname (always starting with `/`), `queryFrag` is the
serialized search-plus-fragment tail (empty, or starting with `?` or `#`). -/
structure UrlParts where
  scheme : String
  host : String
  path : String
  queryFrag : String
deriving Repr, DecidableEq

/-- Serialization of a parsed URL, the model of the `href` property. -/
def UrlParts.href (u : UrlParts) : String :=
  u.scheme ++ "://" ++ u.host ++ u.path ++ u.queryFrag

/-- Modelled from the spec: "standard URL resolution" — the absolute-URL
parsing done by the platform `URL` class, which is not part of the
repository.  The model is restricted to lower-case `http`/`https` URLs: the
host is the maximal run up to `/`, `?` or `#` and must be non-empty, an
empty path is normalized to `/`.  Parsing fails (`none`) on anything else,
which models the constructor throwing. -/
def parseAbsUrl (s : String) : Option UrlParts :=
  let parse (scheme : String) (rest : List Char) : Option UrlParts :=
    let host := rest.takeWhile (fun c => c ≠ '/' && c ≠ '?' && c ≠ '#')
    if host.isEmpty then none
    else
      let after := rest.drop host.length
      let path := after.takeWhile (fun c => c ≠ '?' && c ≠ '#')
      let qf := after.drop path.length
      some { scheme := scheme, host := ⟨host⟩,
             path := if path.isEmpty then "/" else ⟨path⟩, queryFrag := ⟨qf⟩ }
  if "https://".data.isPrefixOf s.data then parse "https" (s.data.drop 8)
  else if "http://".data.isPrefixOf s.data then parse "http" (s.data.drop 7)
  else none

/-- Pathname portion (before any `?` or `#`) of a relative reference. -/
def relPathPart (l : List Char) : List Char :=
  l.takeWhile (fun c => c ≠ '?' && c ≠ '#')

/-- Directory of a pathname: everything up to and including the last `/`. -/
def dirOf (p : String) : String :=
  ⟨(p.data.reverse.dropWhile (fun c => c ≠ '/')).reverse⟩

/-- True when the string starts with something that looks like a URL scheme
(letters followed by `:`); such references are never treated as relative. -/
def hasSchemeMark (s : String) : Bool :=
  match s.data.span (fun c => c.isAlpha) with
  | (hd, ':' :: _) => !hd.isEmpty
  | _ => false

/-- Modelled from the spec: "standard URL resolution" of `new URL(href,
base)` over the `parseAbsUrl` model.  Absolute references stand alone;
scheme-marked references must parse absolutely or fail; otherwise the base
must parse and the reference is resolved against it (protocol-relative,
absolute-path, query-only, fragment-only and relative-path forms).  Dot
segments are not normalized (no claim depends on them). -/
def urlResolve (href base : String) : Option String :=
  match parseAbsUrl href with
  | some u => some u.href
  | none =>
    if hasSchemeMark href then none
    else
      match parseAbsUrl base with
      | none => none
      | some b =>
        match href.data with
        | '/' :: '/' :: _ =>
          (parseAbsUrl (b.scheme ++ ":" ++ href)).map UrlParts.href
        | '/' :: _ =>
          let p := relPathPart href.data
          some { b with path := ⟨p⟩, queryFrag := ⟨href.data.drop p.length⟩ }.href
        | '?' :: _ =>
          some { b with queryFrag := href }.href
        | '#' :: _ =>
          some { b with queryFrag := ⟨b.queryFrag.data.takeWhile (fun c => c ≠ '#') ++ href.data⟩ }.href
        | [] =>
          some { b with queryFrag := ⟨b.queryFrag.data.takeWhile (fun c => c ≠ '#')⟩ }.href
        | _ =>
          let p := relPathPart href.data
          some { b with path := ⟨(dirOf b.path).data ++ p⟩,
                        queryFrag := ⟨href.data.drop p.length⟩ }.href

/-- `toAbs` of the Playwright variant (`src/main.js` lines 7-13): resolve
against the base (default `https://www.rozee.pk`), returning `null` when
the `URL` constructor throws.  No fragment stripping. -/
def toAbsPW (href : String) (base : String := "https://www.rozee.pk") : Option String :=
  urlResolve href base

/-- `toAbs` of the CheerioCrawler variant (`src/main.js` lines 573-575, and
identically `part_001` lines 35-37 / `part_005` lines 32-34): resolve
against the base and keep only the part before the first `#`
(`.href.split('#')[0]`), returning `null` on failure. -/
def toAbsCh (href : String) (base : String := "https://www.rozee.pk") : Option String :=
  (urlResolve href base).map (fun h => ⟨h.data.takeWhile (fun c => c ≠ '#')⟩)

/-- `extractJobIdFromUrl` from the Playwright variant (`src/main.js` lines
28-36): parse the URL, match `/(\d+)(?:\/)?$/` on the pathname — the
maximal trailing digit run, allowing one trailing slash after it — and
return the digits, falling back to the whole pathname; `null` when the URL
constructor throws. -/
def extractJobIdFromUrl (url : String) : Option String :=
  match parseAbsUrl url with
  | none => none
  | some u =>
    let p := u.path.data
    let q := if p.getLast? = some '/' then p.dropLast else p
    let ds := (q.reverse.takeWhile Char.isDigit).reverse
    if ds.isEmpty then some u.path else some ⟨ds⟩

/-- A saved job record of the Playwright variant (`src/main.js` lines
489-500). -/
structure Job where
  source : String
  url : String
  title : String
  company : String
  location : String
  salary : String
  contract_type : String
  description_html : Option String
  description_text : String
  date_posted : Option String
deriving Repr, DecidableEq

/-- `validateJobItem` from the Playwright variant (`src/main.js` lines
38-43): require a truthy title and url, and a truthy company or location. -/
def validateJobItem (item : Job) : Bool :=
  if item.title = "" || item.url = "" then false
  else if item.company = "" && item.location = "" then false
  else true

/-- Model of `String.prototype.split` with a single-character separator:
`"a,b".split(',') = ["a","b"]`, `"".split(',') = [""]`. -/
def splitOnCharL (sep : Char) : List Char → List (List Char)
  | [] => [[]]
  | x :: r =>
    if x = sep then [] :: splitOnCharL sep r
    else
      match splitOnCharL sep r with
      | h :: t => (x :: h) :: t
      | [] => [[x]]

/-- Model of `Array.prototype.join(sep)`. -/
def joinSep (sep : String) : List String → String
  | [] => ""
  | [x] => x
  | x :: r => x ++ sep ++ joinSep sep r

/-- `normalizeLocation` from the Playwright variant (`src/main.js` lines
86-102): split on commas, clean each part, drop empties, keep the first
occurrence of each distinct part (the `unique` loop), keep the first two,
join with `", "`; the empty string for a falsy input. -/
def normalizeLocation (loc : Option String) : String :=
  if jsFalsy loc then ""
  else
    let parts :=
      ((splitOnCharL ',' (loc.getD "").data).map (fun p => cleanText (some ⟨p⟩))).filter
        (fun p => p ≠ "")
    let unique := parts.foldl (fun acc p => if acc.contains p then acc else acc ++ [p]) []
    joinSep ", " (unique.take 2)

/-- Spec-side maximal non-whitespace words of a string (the accumulator
holds the current word reversed). -/
def wordsAux (cur : List Char) : List Char → List (List Char)
  | [] => if cur.isEmpty then [] else [cur.reverse]
  | c :: r =>
    if isJsWs c then
      if cur.isEmpty then wordsAux [] r else cur.reverse :: wordsAux [] r
    else wordsAux (c :: cur) r

def wordsOf (l : List Char) : List (List Char) :=
  wordsAux [] l

/-- Spec-side join of words with single spaces. -/
def joinWordsL : List (List Char) → List Char
  | [] => []
  | [w] => w
  | w :: r => w ++ ' ' :: joinWordsL r

/-- Spec-side reading of "trims and whitespace-collapses": the maximal
non-whitespace words joined by single spaces. -/
def specTrimCollapse (s : String) : String :=
  ⟨joinWordsL (wordsOf s.data)⟩

/-- Spec-side reading of "removes duplicate components while preserving
first-occurrence order". -/
def dedupFirst : List String → List String
  | [] => []
  | x :: r => x :: dedupFirst (r.filter (fun y => y ≠ x))
termination_by l => l.length
decreasing_by
  simp only [List.length_cons]
  exact Nat.lt_succ_of_le (List.length_filter_le _ _)

/-- Spec-side restatement of the claimed `normalizeLocation` behaviour,
built from independent list combinators. -/
def normalizeLocationSpec (loc : Option String) : String :=
  match loc with
  | none => ""
  | some s =>
    if s = "" then ""
    else
      joinSep ", "
        ((dedupFirst
            (((splitOnCharL ',' s.data).map (fun p => specTrimCollapse ⟨p⟩)).filter
              (fun p => p ≠ ""))).take 2)

/-- ASCII lower-casing of one character (the model of the case handling in
`toLowerCase` and of `/i` regular-expression flags; the scraper's patterns
are ASCII). -/
def lcChar (c : Char) : Char :=
  if 'A' ≤ c && c ≤ 'Z' then Char.ofNat (c.toNat + 32) else c

/-- Model of `String.prototype.toLowerCase` for ASCII content. -/
def lcString (s : String) : String :=
  ⟨s.data.map lcChar⟩

/-- Case-insensitive prefix test (for `/i` patterns). -/
def ciPrefix : List Char → List Char → Bool
  | [], _ => true
  | _ :: _, [] => false
  | p :: ps, c :: cs => lcChar p = lcChar c && ciPrefix ps cs

/-- One-position test of the Playwright listing regular expression (dash, `jobs`, dash, digits, case-insensitive):
the literal `-jobs-` (case-insensitively) followed by at least one digit. -/
def jobsIdAt (l : List Char) : Bool :=
  ciPrefix "-jobs-".data l &&
    match l.drop 6 with
    | c :: _ => c.isDigit
    | [] => false

/-- Search of the same pattern anywhere in an href (`src/main.js` line 278). -/
def containsJobsIdL : List Char → Bool
  | [] => false
  | c :: r => jobsIdAt (c :: r) || containsJobsIdL r

def containsJobsId (href : String) : Bool :=
  containsJobsIdL href.data

/-- Numeric value of a digit list (the model of `parseInt(m, 10)` on a
captured digit group). -/
def digitsVal (ds : List Char) : Nat :=
  ds.foldl (fun a c => a * 10 + (c.toNat - '0'.toNat)) 0

/-- First match of `/(\d+)\s*word/` on a (lower-cased) string: scan left to
right; at a digit, take the maximal digit run and require `word` after
optional whitespace.  Scanning restarts one character later on failure,
which matches the regular expression because every start inside the same
digit run sees the same tail and fails alike, and the leftmost successful
start captures the whole run. -/
def matchNumWord (word : List Char) : List Char → Option Nat
  | [] => none
  | c :: r =>
    if c.isDigit then
      let ds := (c :: r).takeWhile Char.isDigit
      let rest := (c :: r).drop ds.length
      if word.isPrefixOf (rest.dropWhile isJsWs) then some (digitsVal ds)
      else matchNumWord word r
    else matchNumWord word r

/-- Three-letter month names of the date pattern in `isWithinDateFilter`. -/
def monthNames : List (List Char) :=
  ["jan", "feb", "mar", "apr", "may", "jun", "jul", "aug", "sep", "oct", "nov", "dec"].map
    String.data

/-- Match of the pattern `(jan|…|dec)` then `\s+` then `(\d{1,2})` then a
comma then `\s+` then `(\d{4})`, anchored at the head of the list, yielding
(month, day, year). -/
def mdyAt (l : List Char) : Option (Nat × Nat × Nat) :=
  match (monthNames.findIdx? (fun nm => nm.isPrefixOf l)).map (fun i => (i + 1, l.drop 3)) with
  | none => none
  | some (m, r1) =>
    match r1 with
    | [] => none
    | c :: r2 =>
      if isJsWs c then
        let r3 := r2.dropWhile isJsWs
        let dayParse : Option (Nat × List Char) :=
          match r3 with
          | a :: b :: ',' :: r4 =>
            if a.isDigit && b.isDigit then some (digitsVal [a, b], r4)
            else
              match r3 with
              | a' :: ',' :: r4' => if a'.isDigit then some (digitsVal [a'], r4') else none
              | _ => none
          | a :: ',' :: r4 => if a.isDigit then some (digitsVal [a], r4) else none
          | _ => none
        match dayParse with
        | none => none
        | some (day, r4) =>
          match r4 with
          | [] => none
          | e :: r5 =>
            if isJsWs e then
              match r5.dropWhile isJsWs with
              | y1 :: y2 :: y3 :: y4 :: _ =>
                if y1.isDigit && y2.isDigit && y3.isDigit && y4.isDigit then
                  some (m, day, digitsVal [y1, y2, y3, y4])
                else none
              | _ => none
            else none
      else none

/-- First match of the month-day-year pattern anywhere in the string. -/
def matchMonthDate : List Char → Option (Nat × Nat × Nat)
  | [] => none
  | c :: r =>
    match mdyAt (c :: r) with
    | some x => some x
    | none => matchMonthDate r

/-- Days since the Unix epoch of a civil date (proleptic Gregorian). -/
def daysFromCivil (y : Int) (m d : Nat) : Int :=
  let y' : Int := if m ≤ 2 then y - 1 else y
  let era : Int := (if 0 ≤ y' then y' else y' - 399) / 400
  let yoe : Nat := (y' - era * 400).toNat
  let mp : Nat := (m + 9) % 12
  let doy : Nat := (153 * mp + 2) / 5 + d - 1
  let doe : Nat := yoe * 365 + yoe / 4 - yoe / 100 + doy
  era * 146097 + (doe : Int) - 719468

/-- Milliseconds timestamp of `new Date("<month> <day>, <year>")`, modelled
at UTC midnight. -/
def dateToMs (y : Int) (m d : Nat) : Int :=
  daysFromCivil y m d * 86400000

/-- `isWithinDateFilter` from `part_001` lines 53-76 (identical in
`part_005` lines 50-73).  `nowMs` models `new Date()` at call time; the
layered parse is: relative hours, relative days, literal today/yesterday,
absolute month-day-year; everything else is included. -/
def isWithinDateFilter (nowMs : Int) (dateStr : Option String) (filter : String) : Bool :=
  if jsFalsy dateStr || filter = "all" then true
  else
    let cutoffHours : Nat :=
      if filter = "24hours" then 24
      else if filter = "7days" then 168
      else if filter = "30days" then 720
      else 0
    if cutoffHours = 0 then true
    else
      let s := (lcString (dateStr.getD "")).data
      match matchNumWord "hour".data s with
      | some n => n ≤ cutoffHours
      | none =>
        match matchNumWord "day".data s with
        | some n => n * 24 ≤ cutoffHours
        | none =>
          if containsSub s "today".data then true
          else if containsSub s "yesterday".data then 24 ≤ cutoffHours
          else
            match matchMonthDate s with
            | some (m, day, y) =>
              nowMs - dateToMs (Int.ofNat y) m day ≤ (cutoffHours : Int) * 3600000
            | none => true

/-- Digit string of a natural number (model of `String(n)`). -/
def natStr (n : Nat) : String :=
  toString n

/-- Join of query items with ampersands. -/
def joinWithAmp : List (List Char) → List Char
  | [] => []
  | [x] => x
  | x :: r => x ++ '&' :: joinWithAmp r

/-- Replacement of the first `page=` query item (dropping later ones), the
model of `URLSearchParams.set`. -/
def setFirstPage (pageItem : List Char) : List (List Char) → List (List Char)
  | [] => []
  | p :: r =>
    if "page=".data.isPrefixOf p then
      pageItem :: r.filter (fun q => ¬"page=".data.isPrefixOf q)
    else p :: setFirstPage pageItem r

/-- Model of `url.searchParams.set('page', String(n))` followed by
`url.toString()`: replace the first `page=` entry of the query or append
one, keeping the fragment. -/
def setPageParam (u : UrlParts) (n : Nat) : String :=
  let qf := u.queryFrag.data
  let query := qf.takeWhile (fun c => c ≠ '#')
  let frag := qf.drop query.length
  let items :=
    match query with
    | '?' :: rest => (splitOnCharL '&' rest).filter (fun p => ¬p.isEmpty)
    | _ => []
  let pageItem := ("page=" ++ natStr n).data
  let items' :=
    if items.any (fun p => "page=".data.isPrefixOf p) then setFirstPage pageItem items
    else items ++ [pageItem]
  UrlParts.href { u with queryFrag := ⟨'?' :: joinWithAmp items' ++ frag⟩ }

/-- Join of path segments with slashes. -/
def joinPathSegs : List (List Char) → List Char
  | [] => []
  | [x] => x
  | x :: r => x ++ '/' :: joinPathSegs r

/-- `buildNextPageUrl` from the Playwright variant (`src/main.js` lines
54-70): replace the path segment after `fc` with the next page number, or
fall back to setting a `page` query parameter; `null` when the URL fails to
parse. -/
def buildNextPageUrl (currentUrl : String) (nextPageNo : Nat) : Option String :=
  match parseAbsUrl currentUrl with
  | none => none
  | some u =>
    let parts := (splitOnCharL '/' u.path.data).filter (fun p => ¬p.isEmpty)
    match parts.findIdx? (fun p => p = "fc".data) with
    | some i =>
      if i + 1 < parts.length then
        let parts' := parts.set (i + 1) (natStr nextPageNo).data
        some (UrlParts.href { u with path := ⟨'/' :: joinPathSegs parts'⟩ })
      else some (setPageParam u nextPageNo)
    | none => some (setPageParam u nextPageNo)

/-- Consumption of one optional leading slash. -/
def stripSlash : List Char → List Char
  | '/' :: t => t
  | l => l

/-- Consumption of a mandatory `>`. -/
def expectGt : List Char → Option (List Char)
  | '>' :: t => some t
  | _ => none

/-- Match of the tag pattern `<`, `\s*`, `br` (case-insensitive), `\s*`, an
optional `/`, `>` — everything after the opening `<`.  Returns the
remainder after the closing `>` on success.  Maximal whitespace skipping
coincides with the regular expression's backtracking because the characters
that may follow (`b`/`r`/`/`/`>`) are never whitespace. -/
def brAfterLt (cs : List Char) : Option (List Char) :=
  match cs.dropWhile isJsWs with
  | [] => none
  | c :: cs2 =>
    if c = 'b' || c = 'B' then
      match cs2 with
      | [] => none
      | c2 :: cs3 =>
        if c2 = 'r' || c2 = 'R' then expectGt (stripSlash (cs3.dropWhile isJsWs))
        else none
    else none

/-- Closing-tag names of `replaceClose`: `p`, `div`, `li`, `h1` … `h6`.  No
two names share a first letter (the `h` names differ in the digit), so
committing to the first prefix match is faithful to the alternation. -/
def closeNames : List (List Char) :=
  ["p", "div", "li", "h1", "h2", "h3", "h4", "h5", "h6"].map String.data

def tagNameEnd : List (List Char) → List Char → Option (List Char)
  | [], _ => none
  | nm :: nms, cs => if ciPrefix nm cs then some (cs.drop nm.length) else tagNameEnd nms cs

/-- Match of the closing-tag pattern `<`, `/`, `\s*`, a name from
`closeNames` (case-insensitive), `\s*`, `>` — everything after the opening
`<`.  Returns the remainder after `>` on success. -/
def closeAfterLt (cs : List Char) : Option (List Char) :=
  match cs with
  | '/' :: cs1 =>
    match tagNameEnd closeNames (cs1.dropWhile isJsWs) with
    | some cs3 => expectGt (cs3.dropWhile isJsWs)
    | none => none
  | _ => none

/-- Fueled scanner of a global tag-to-newline replacement: at a `<` whose
tail matches (per the supplied matcher), emit a newline and continue after
the match; otherwise copy one character.  The fuel is spent one unit per
step and the wrappers pass the list length, which always suffices because
every step consumes at least one character. -/
def tagScanF (m : List Char → Option (List Char)) : Nat → List Char → List Char
  | 0, l => l
  | _ + 1, [] => []
  | fuel + 1, c :: r =>
    if c = '<' then
      match m r with
      | some t => '\n' :: tagScanF m fuel t
      | none => '<' :: tagScanF m fuel r
    else c :: tagScanF m fuel r

/-- The replacement of `br` tags by newlines (`src/main.js` line 77). -/
def replaceBr (l : List Char) : List Char :=
  tagScanF brAfterLt l.length l

/-- The replacement of block-closing tags by newlines (`src/main.js`
line 78). -/
def replaceClose (l : List Char) : List Char :=
  tagScanF closeAfterLt l.length l

/-- Split of a list at its first `>`: the part before it and the part after
it. -/
def findGt : List Char → Option (List Char × List Char)
  | [] => none
  | c :: t => if c = '>' then some ([], t) else (findGt t).map (fun p => (c :: p.1, p.2))

/-- Fueled scanner of `.replace(/<[^>]+>/g, ' ')`: a `<` with a later `>`
and at least one character between them is a match (the characters between
are automatically `>`-free by minimality); a `<` immediately followed by
`>` is not a match and scanning resumes after the `<`; a `<` with no `>`
anywhere later can start no match, nor can anything after it, so the rest
is emitted unchanged. -/
def stripTagsF : Nat → List Char → List Char
  | 0, l => l
  | _ + 1, [] => []
  | fuel + 1, c :: r =>
    if c = '<' then
      match findGt r with
      | some (before, after) =>
        if before.isEmpty then '<' :: stripTagsF fuel r else ' ' :: stripTagsF fuel after
      | none => c :: r
    else c :: stripTagsF fuel r

def stripTags (l : List Char) : List Char :=
  stripTagsF l.length l

/-- Fueled scanner of `.replace(/\n\s*\n+/g, '\n\n')`: at a newline whose
following maximal whitespace run contains another newline, the match
extends to the last newline of that run (the regular expression's greedy
`\s*` backtracks so that the final `\n+` ends at the last newline) and is
replaced by exactly two newlines. -/
def collapseNlF : Nat → List Char → List Char
  | 0, l => l
  | _ + 1, [] => []
  | fuel + 1, c :: r =>
    if c = '\n' then
      let run := r.takeWhile isJsWs
      if run.contains '\n' then
        let k := (run.reverse.dropWhile (fun x => x ≠ '\n')).length
        '\n' :: '\n' :: collapseNlF fuel (r.drop k)
      else '\n' :: collapseNlF fuel r
    else c :: collapseNlF fuel r

def collapseNl (l : List Char) : List Char :=
  collapseNlF l.length l

/-- `htmlToText` from the Playwright variant (`src/main.js` lines 72-84):
`<br>` tags and block-closing tags become newlines, remaining tags become
spaces, carriage returns are removed, blank-line runs collapse to a double
newline, and the result goes through `cleanText`. -/
def htmlToText (html : String) : String :=
  if html = "" then ""
  else
    let t1 := replaceBr html.data
    let t2 := replaceClose t1
    let t3 := stripTags t2
    let t4 := t3.filter (fun c => c ≠ '\r')
    let t5 := collapseNl t4
    cleanTextS ⟨t5⟩

/-- Result record of the in-page extraction `page.evaluate` of the
Playwright detail handler (`src/main.js` lines 350-479): the six field
slots the cascade fills, each possibly absent. -/
structure RawJob where
  title : Option String
  company : Option String
  location : Option String
  salary : Option String
  contract_type : Option String
  description_html : Option String
  date_posted : Option String
deriving Repr, DecidableEq

/-- JavaScript `x || null` on an optional string. -/
def jsOrNull (x : Option String) : Option String :=
  match x with
  | some s => if s = "" then none else some s
  | none => none

/-- Construction and validation of the job record in the Playwright detail
handler (`src/main.js` lines 486-509): build the record from the raw
extraction, validate it with `validateJobItem`, and return it exactly when
it is pushed to the dataset (`Dataset.pushData`). -/
def pwDetailResult (raw : RawJob) (url : String) : Option Job :=
  let rawLocation := raw.location.getD ""
  let job : Job :=
    { source := "rozee.pk",
      url := url,
      title := cleanText raw.title,
      company := cleanText raw.company,
      location := normalizeLocation (some rawLocation),
      salary := cleanText raw.salary,
      contract_type := cleanText raw.contract_type,
      description_html := jsOrNull raw.description_html,
      description_text := htmlToText (raw.description_html.getD ""),
      date_posted := jsOrNull raw.date_posted }
  if validateJobItem job then some job else none

/-- Selector results the CheerioCrawler detail handler reads
(`src/main.js` lines 716-731); a selector with no match yields the empty
string, as cheerio's `.text()` does. -/
structure ChDetailPage where
  h123 : String
  titleTag : String
  companyAnchor : String
  companyClass : String
  locationClass : String
  locationSib : String
  salaryLiSib : String
  salaryDivSib : String
  descBlock : String
  bodyText : String
deriving Repr, DecidableEq

/-- A record saved by the CheerioCrawler detail handler (`src/main.js`
lines 735-743). -/
structure ChJob where
  url : String
  title : String
  company : String
  location : String
  salary : String
  description : String
  scrapedAt : String
deriving Repr, DecidableEq

/-- The CheerioCrawler detail handler (`src/main.js` lines 715-746): the
field fallback chains, the `if (!title || !company) throw` guard, and the
record that `Dataset.pushData` receives on success (`none` models the
throw, which lands in `failedUrls`). -/
def chDetailResult (d : ChDetailPage) (url nowIso : String) : Option ChJob :=
  let title := jsOr (jsTrim d.h123) (jsTrim ⟨d.titleTag.data.takeWhile (fun c => c ≠ '|')⟩)
  let company := jsOr (jsTrim d.companyAnchor) (jsTrim d.companyClass)
  let location := jsOr (jsOr (jsTrim d.locationClass) (jsTrim d.locationSib)) "Pakistan"
  let salary := jsOr (jsOr (jsTrim d.salaryLiSib) (jsTrim d.salaryDivSib)) "Not specified"
  let description := jsOr (jsTrim d.descBlock) ⟨d.bodyText.data.take 1000⟩
  if title = "" || company = "" then none
  else
    some { url := url, title := title, company := company, location := location,
           salary := salary, description := ⟨description.data.take 2000⟩, scrapedAt := nowIso }

/-- The save condition of the `part_003` detail handler (lines 228-235):
the record is pushed when `title || company` is truthy. -/
def part3Saves (title company : Option String) : Bool :=
  !jsFalsy title || !jsFalsy company

/-- First-occurrence deduplication, the model of collecting values into a
JavaScript `Set` and converting back with `Array.from`. -/
def dedupKeepFirst (l : List String) : List String :=
  l.foldl (fun acc x => if acc.contains x then acc else acc ++ [x]) []

/-- The request payload of the Playwright crawler: a Listing task with its
page number or a Detail task with its extracted job id (`userData`). -/
inductive PwTaskData where
  | list (pageNo : Nat)
  | detail (jobId : String)
deriving Repr, DecidableEq

structure PwTask where
  url : String
  data : PwTaskData
deriving Repr, DecidableEq

def PwTask.isList (t : PwTask) : Bool :=
  match t.data with
  | .list _ => true
  | .detail _ => false

def PwTask.isDetail (t : PwTask) : Bool :=
  match t.data with
  | .list _ => false
  | .detail _ => true

/-- What one fetched page gives the Playwright handler: the block flag of
the content-based forbidden check, the href attributes of the page's
anchors, and the outcome of `page.evaluate` on a detail page.  The page
content is external input, so a run is parameterized by it. -/
structure PwPage where
  forbidden : Bool
  anchors : List String
  extractOk : Bool
  raw : RawJob
deriving Repr

def PwWorld : Type := String → PwPage

/-- Configuration of a Playwright run: `RESULTS_WANTED`, `MAX_PAGES`,
`collectDetails`. -/
structure PwCfg where
  T : Nat
  P : Nat
  collectDetails : Bool
deriving Repr

/-- Crawl state of a Playwright run: the request queue, the `saved` and
`detailEnqueued` counters, the `seenJobIds` set, and the log of every
request ever added to the queue (seeds included). -/
structure PwState where
  queue : List PwTask
  saved : Nat
  detailEnqueued : Nat
  seen : List String
  log : List PwTask
deriving Repr

/-- The detail-enqueue loop of the Playwright LIST handler (`src/main.js`
lines 288-309): stop when `saved + detailEnqueued` reaches the target,
resolve each href, extract its job id, skip falsy or already-seen ids,
otherwise record the id and enqueue a Detail request.  Returns the new
seen set, the new `detailEnqueued`, and the enqueued tasks in order. -/
def pwEnqueueLoop (T saved : Nat) (base : String) :
    List String → List String → Nat → List String × Nat × List PwTask
  | [], seen, dE => (seen, dE, [])
  | href :: hs, seen, dE =>
    if T ≤ saved + dE then (seen, dE, [])
    else
      match toAbsPW href base with
      | none => pwEnqueueLoop T saved base hs seen dE
      | some absUrl =>
        match extractJobIdFromUrl absUrl with
        | none => pwEnqueueLoop T saved base hs seen dE
        | some jid =>
          if jid = "" || seen.contains jid then pwEnqueueLoop T saved base hs seen dE
          else
            let r := pwEnqueueLoop T saved base hs (jid :: seen) (dE + 1)
            (r.1, r.2.1, ⟨absUrl, .detail jid⟩ :: r.2.2)

/-- The pagination enqueue of the Playwright LIST handler (`src/main.js`
lines 316-325), with its guard passed as the already-evaluated condition:
while it holds, the next listing page URL is built and enqueued with page
number `pageNo + 1`. -/
def pwPagTasks (url : String) (pageNo : Nat) (cond : Bool) : List PwTask :=
  if cond then
    match buildNextPageUrl url (pageNo + 1) with
    | some nu => [⟨nu, .list (pageNo + 1)⟩]
    | none => []
  else []

/-- One handler invocation of the Playwright crawler (`src/main.js` lines
231-521): pop the next request; skip LIST work once the target is reached;
on a LIST page filter and deduplicate the job anchors, run the
detail-enqueue loop, and enqueue the next listing page while below
`MAX_PAGES` and below the target; on a DETAIL page return early unless
`collectDetails`, then extract, validate and save. -/
def pwStep (cfg : PwCfg) (world : PwWorld) (st : PwState) : PwState :=
  match st.queue with
  | [] => st
  | t :: rest =>
    let st0 := { st with queue := rest }
    if cfg.T ≤ st.saved && t.isList then st0
    else
      match t.data with
      | .list pageNo =>
        let pg := world t.url
        if pg.forbidden then st0
        else
          let jobUrls := dedupKeepFirst (pg.anchors.filter containsJobsId)
          let r := pwEnqueueLoop cfg.T st.saved t.url jobUrls st.seen st.detailEnqueued
          let pagTasks :=
            pwPagTasks t.url pageNo (decide (pageNo < cfg.P) && decide (st.saved + r.2.1 < cfg.T))
          { queue := rest ++ r.2.2 ++ pagTasks,
            saved := st.saved,
            detailEnqueued := r.2.1,
            seen := r.1,
            log := st.log ++ r.2.2 ++ pagTasks }
      | .detail _ =>
        if !cfg.collectDetails then st0
        else
          let pg := world t.url
          if !pg.extractOk then st0
          else
            match pwDetailResult pg.raw t.url with
            | some _ => { st0 with saved := st.saved + 1 }
            | none => st0

/-- A Playwright run: handler invocations until the queue is empty or the
fuel runs out (the model serializes the library's worker pool into one
handler at a time, processing the queue in order). -/
def pwRun : Nat → PwCfg → PwWorld → PwState → PwState
  | 0, _, _, st => st
  | fuel + 1, cfg, world, st =>
    match st.queue with
    | [] => st
    | _ :: _ => pwRun fuel cfg world (pwStep cfg world st)

/-- Initial state: every seed is a Listing request with page number 1
(`src/main.js` lines 132-162). -/
def pwInit (seeds : List String) : PwState :=
  let ts := seeds.map (fun u => (⟨u, .list 1⟩ : PwTask))
  { queue := ts, saved := 0, detailEnqueued := 0, seen := [], log := ts }

/-- The request payload of the CheerioCrawler variant. -/
inductive ChTaskData where
  | list (pageNo : Nat)
  | detail
deriving Repr, DecidableEq

structure ChTask where
  url : String
  data : ChTaskData
deriving Repr, DecidableEq

def ChTask.isDetail (t : ChTask) : Bool :=
  match t.data with
  | .list _ => false
  | .detail => true

/-- What one fetched page gives the CheerioCrawler handler: the Cloudflare
block flag, the listing anchors (`#jobs h3 a[href]` hrefs), the `next`
pagination href when one exists, and the detail-selector results. -/
structure ChPage where
  cfBlock : Bool
  anchors : List String
  nextHref : Option String
  d : ChDetailPage
deriving Repr

def ChWorld : Type := String → ChPage

/-- Configuration of a CheerioCrawler run: `MAX_ITEMS`, `MAX_PAGES`,
`collectDetails`, and the clock string used for `scrapedAt`. -/
structure ChCfg where
  M : Nat
  P : Nat
  collectDetails : Bool
  nowIso : String
deriving Repr

structure ChState where
  queue : List ChTask
  saved : Nat
  failed : Nat
  log : List ChTask
deriving Repr

/-- The pagination enqueue of the CheerioCrawler LIST handler
(`src/main.js` lines 693-705), with the `pageNo < MAX_PAGES` guard passed
as the already-evaluated condition. -/
def chPagTasks (nextHref : Option String) (url : String) (pageNo : Nat) (cond : Bool) :
    List ChTask :=
  match nextHref with
  | some nh =>
    if cond then
      match toAbsCh nh url with
      | some nu => [(⟨nu, .list (pageNo + 1)⟩ : ChTask)]
      | none => []
    else []
  | none => []

/-- One handler invocation of the CheerioCrawler (`src/main.js` lines
654-754): on a LIST page collect absolute job links containing `/job/`,
enqueue at most `MAX_ITEMS - saved` of them as Detail requests when
`collectDetails` holds and `saved < MAX_ITEMS`, and follow the next page
while below `MAX_PAGES`; on a DETAIL page extract and save, recording a
failure when the required fields are missing.  A Cloudflare block throws,
landing the request in `failedUrls`. -/
def chStep (cfg : ChCfg) (world : ChWorld) (st : ChState) : ChState :=
  match st.queue with
  | [] => st
  | t :: rest =>
    let st0 := { st with queue := rest }
    let pg := world t.url
    match t.data with
    | .list pageNo =>
      if pg.cfBlock then { st0 with failed := st.failed + 1 }
      else
        let jobLinks :=
          dedupKeepFirst
            (pg.anchors.filterMap fun h =>
              match toAbsCh h with
              | some abs => if containsSub abs.data "/job/".data then some abs else none
              | none => none)
        let newTasks :=
          if cfg.collectDetails && st.saved < cfg.M then
            (jobLinks.take (cfg.M - st.saved)).map fun u => (⟨u, .detail⟩ : ChTask)
          else []
        let pagTasks := chPagTasks pg.nextHref t.url pageNo (decide (pageNo < cfg.P))
        { queue := rest ++ newTasks ++ pagTasks,
          saved := st.saved, failed := st.failed,
          log := st.log ++ newTasks ++ pagTasks }
    | .detail =>
      if pg.cfBlock then { st0 with failed := st.failed + 1 }
      else
        match chDetailResult pg.d t.url cfg.nowIso with
        | some _ => { st0 with saved := st.saved + 1 }
        | none => { st0 with failed := st.failed + 1 }

def chRun : Nat → ChCfg → ChWorld → ChState → ChState
  | 0, _, _, st => st
  | fuel + 1, cfg, world, st =>
    match st.queue with
    | [] => st
    | _ :: _ => chRun fuel cfg world (chStep cfg world st)

def chInit (seeds : List String) : ChState :=
  let ts := seeds.map (fun u => (⟨u, .list 1⟩ : ChTask))
  { queue := ts, saved := 0, failed := 0, log := ts }

/-- Number of Detail requests in a queue. -/
def countD (l : List PwTask) : Nat :=
  l.countP (fun t => t.isDetail)

/-- The quota invariant of the Playwright driver: saved records plus queued
Detail requests never exceed the `detailEnqueued` counter, which never
exceeds the target. -/
def pwQuotaInv (T : Nat) (st : PwState) : Prop :=
  st.saved + countD st.queue ≤ st.detailEnqueued ∧ st.detailEnqueued ≤ T

/-- `parseNumber` from the Playwright variant (`src/main.js` lines 23-26):
a finite positive number stands, anything else falls back
(non-numeric/NaN inputs are modelled as `none`). -/
def parseNumber (value : Option Int) (fallback : Int) : Int :=
  match value with
  | some n => if 0 < n then n else fallback
  | none => fallback

/-- Configuration normalization of the Playwright variant (`src/main.js`
lines 125-126): `RESULTS_WANTED = parseNumber(raw, 100)`,
`MAX_PAGES = parseNumber(raw, 999)`. -/
def pwCfgOfInput (resultsWanted maxPages : Option Int) (cd : Bool) : PwCfg :=
  { T := (parseNumber resultsWanted 100).toNat,
    P := (parseNumber maxPages 999).toNat,
    collectDetails := cd }

/-- Boolean check that every Listing task of a log has page index at most
`P`. -/
def listLogBounded (P : Nat) (l : List PwTask) : Bool :=
  l.all fun t =>
    match t.data with
    | .list n => n ≤ P
    | .detail _ => true

/-- The job id a Detail task was enqueued under. -/
def detailId (t : PwTask) : Option String :=
  match t.data with
  | .list _ => none
  | .detail j => some j

def detailIds (l : List PwTask) : List String :=
  l.filterMap detailId

/-- The dedup invariant of the Playwright driver: the job ids of all Detail
requests ever enqueued are pairwise distinct, all recorded in
`seenJobIds`, and each equals the id extracted from the request's URL. -/
def pwIdInv (st : PwState) : Prop :=
  (detailIds st.log).Nodup ∧ (∀ j ∈ detailIds st.log, j ∈ st.seen) ∧
    ∀ t ∈ st.log, ∀ j, t.data = PwTaskData.detail j → extractJobIdFromUrl t.url = some j

/-- Boolean pairwise-distinctness of a list of strings. -/
def nodupStr : List String → Bool
  | [] => true
  | x :: xs => !(xs.contains x) && nodupStr xs

/-- Boolean statement that a Playwright log is correctly keyed by job ids:
pairwise-distinct Detail ids, each matching the id extracted from its
URL. -/
def detailLogOk (l : List PwTask) : Bool :=
  nodupStr (detailIds l) &&
    l.all fun t =>
      match t.data with
      | .detail j => extractJobIdFromUrl t.url == some j
      | .list _ => true

/-- An extraction result with every cascade slot empty. -/
def rawEmpty : RawJob :=
  ⟨none, none, none, none, none, none, none⟩

/-- Detail selector results that are all empty. -/
def chdEmpty : ChDetailPage :=
  ⟨"", "", "", "", "", "", "", "", "", ""⟩

/-- Detail selector results with a heading title and a company anchor. -/
def chdGood : ChDetailPage :=
  ⟨"T", "", "C", "", "", "", "", "", "", ""⟩

/-- A world whose every page is a listing page with one job anchor. -/
def pwWorldC3 : PwWorld := fun _ => ⟨false, ["/x-jobs-7"], true, rawEmpty⟩

/-- A world with two listing seeds of one job link each, every other page
being a detail page with extractable title and company. -/
def chWorldC2 : ChWorld := fun u =>
  if u = "https://x/l1" then ⟨false, ["/job/a1"], none, chdEmpty⟩
  else if u = "https://x/l2" then ⟨false, ["/job/a2"], none, chdEmpty⟩
  else ⟨false, [], none, chdGood⟩

/-- The no-detail invariant of the CheerioCrawler driver with
`collectDetails = false`: nothing saved, no Detail task in the queue or
in the log. -/
def chNoDetailInv (st : ChState) : Prop :=
  st.saved = 0 ∧ ((st.queue.all fun t => !t.isDetail) = true) ∧
    (st.log.all fun t => !t.isDetail) = true

/-- A well-tagged HTML fragment: a sequence of plain characters and of
complete tags whose bodies are non-empty and bracket-free. -/
inductive HtmlPiece where
  | chr (c : Char)
  | tag (body : List Char)
deriving Repr, DecidableEq

def renderPiece : HtmlPiece → List Char
  | .chr c => [c]
  | .tag b => '<' :: (b ++ ['>'])

def render : List HtmlPiece → List Char
  | [] => []
  | p :: ps => renderPiece p ++ render ps

def goodPiece : HtmlPiece → Bool
  | .chr c => c ≠ '<' && c ≠ '>'
  | .tag b => !b.isEmpty && b.all fun c => c ≠ '<' && c ≠ '>'

/-- Whether a bracket-free tag body matches the inside of the `<br>`
pattern: optional whitespace, `b`/`B`, `r`/`R`, optional whitespace, an
optional slash. -/
def brBody (b : List Char) : Bool :=
  match b.dropWhile isJsWs with
  | [] => false
  | c :: b2 =>
    (c = 'b' || c = 'B') &&
      match b2 with
      | [] => false
      | c2 :: b3 =>
        (c2 = 'r' || c2 = 'R') &&
          ((b3.dropWhile isJsWs).isEmpty || b3.dropWhile isJsWs = ['/'])

/-- Whether a bracket-free tag body matches the inside of the closing-tag
pattern: a slash, optional whitespace, one of the closing names, optional
whitespace. -/
def closeBody (b : List Char) : Bool :=
  match b with
  | '/' :: b1 =>
    match tagNameEnd closeNames (b1.dropWhile isJsWs) with
    | some b3 => (b3.dropWhile isJsWs).isEmpty
    | none => false
  | _ => false

/-- The effect of one tag-replacement pass on a piece: a matching tag
becomes a newline character, everything else is unchanged. -/
def tagStep (bm : List Char → Bool) : HtmlPiece → HtmlPiece
  | .chr c => .chr c
  | .tag b => if bm b then .chr '\n' else .tag b

/-- The effect of the generic tag-stripping pass on a piece: every tag
becomes a single space. -/
def stripStep : HtmlPiece → HtmlPiece
  | .chr c => .chr c
  | .tag _ => .chr ' '

theorem countD_append (l₁ l₂ : List PwTask) : countD (l₁ ++ l₂) = countD l₁ + countD l₂ := by
  simp [countD, List.countP_append]

theorem pwRun_preserve (cfg : PwCfg) (world : PwWorld) (Inv : PwState → Prop)
    (h : ∀ st, Inv st → Inv (pwStep cfg world st)) :
    ∀ fuel st, Inv st → Inv (pwRun fuel cfg world st) := by
  intro fuel
  induction fuel with
  | zero => intro st hst; exact hst
  | succ n ih =>
    intro st hst
    cases hq : st.queue with
    | nil => simpa [pwRun, hq] using hst
    | cons a l =>
      have : pwRun (n + 1) cfg world st = pwRun n cfg world (pwStep cfg world st) := by
        simp [pwRun, hq]
      rw [this]
      exact ih _ (h st hst)

theorem pwEnqueueLoop_spec (T saved : Nat) (base : String) :
    ∀ (hrefs seen : List String) (dE : Nat), dE ≤ T →
      (pwEnqueueLoop T saved base hrefs seen dE).2.1
          = dE + (pwEnqueueLoop T saved base hrefs seen dE).2.2.length ∧
        (pwEnqueueLoop T saved base hrefs seen dE).2.1 ≤ T ∧
        ∀ t ∈ (pwEnqueueLoop T saved base hrefs seen dE).2.2, t.isDetail = true := by
  intro hrefs
  induction hrefs with
  | nil =>
    intro seen dE hdE
    refine ⟨by simp [pwEnqueueLoop], by simpa [pwEnqueueLoop] using hdE, ?_⟩
    simp [pwEnqueueLoop]
  | cons href hs ih =>
    intro seen dE hdE
    simp only [pwEnqueueLoop]
    split
    · exact ⟨by simp, hdE, by simp⟩
    · rename_i hT
      split
      · exact ih seen dE hdE
      · split
        · exact ih seen dE hdE
        · split
          · exact ih seen dE hdE
          · rename_i jid hid hskip
            have hT' : saved + dE < T := by omega
            have hdE1 : dE + 1 ≤ T := by omega
            obtain ⟨h1, h2, h3⟩ := ih (jid :: seen) (dE + 1) hdE1
            refine ⟨?_, h2, ?_⟩
            · simp only [List.length_cons]
              omega
            · intro t ht
              rcases List.mem_cons.mp ht with h | h
              · subst h; rfl
              · exact h3 t h

theorem countD_cons (t : PwTask) (l : List PwTask) :
    countD (t :: l) = countD l + (if t.isDetail then 1 else 0) := by
  simp [countD, List.countP_cons]

theorem countD_all_detail {l : List PwTask} (h : ∀ t ∈ l, t.isDetail = true) :
    countD l = l.length := by
  induction l with
  | nil => rfl
  | cons a l ih =>
    rw [countD_cons, h a (List.mem_cons_self a l), ih fun t ht => h t (List.mem_cons_of_mem a ht)]
    simp [Nat.add_comm]

theorem countD_nil : countD ([] : List PwTask) = 0 := rfl

theorem countD_one_list (u : String) (n : Nat) : countD [(⟨u, .list n⟩ : PwTask)] = 0 := by
  simp [countD, List.countP_cons, PwTask.isDetail]

theorem pwPagTasks_data {url : String} {pageNo : Nat} {cond : Bool} :
    ∀ u ∈ pwPagTasks url pageNo cond, u.data = PwTaskData.list (pageNo + 1) := by
  intro u hu
  unfold pwPagTasks at hu
  split at hu
  · split at hu
    · rcases List.mem_singleton.mp hu with h
      subst h
      rfl
    · simp at hu
  · simp at hu

theorem pwPagTasks_mem_cond {url : String} {pageNo : Nat} {cond : Bool} :
    ∀ u ∈ pwPagTasks url pageNo cond, cond = true := by
  intro u hu
  unfold pwPagTasks at hu
  split at hu
  · assumption
  · simp at hu

theorem countD_pwPagTasks (url : String) (pageNo : Nat) (cond : Bool) :
    countD (pwPagTasks url pageNo cond) = 0 := by
  unfold pwPagTasks
  split
  · split
    · exact countD_one_list _ _
    · rfl
  · rfl

theorem pwStep_quota (cfg : PwCfg) (world : PwWorld) :
    ∀ st, pwQuotaInv cfg.T st → pwQuotaInv cfg.T (pwStep cfg world st) := by
  intro st h
  obtain ⟨h1, h2⟩ := h
  cases hq : st.queue with
  | nil => simpa [pwStep, hq] using ⟨h1, h2⟩
  | cons t rest =>
    rw [hq, countD_cons] at h1
    simp only [pwStep, hq]
    split
    · exact ⟨by dsimp only; omega, h2⟩
    · split
      · rename_i pageNo hdata
        have htl : t.isDetail = false := by simp [PwTask.isDetail, hdata]
        rw [htl] at h1
        simp at h1
        split
        · exact ⟨by dsimp only; omega, h2⟩
        · obtain ⟨hA, hB, hC⟩ :=
            pwEnqueueLoop_spec cfg.T st.saved t.url
              (dedupKeepFirst ((world t.url).anchors.filter containsJobsId)) st.seen
              st.detailEnqueued h2
          refine ⟨?_, hB⟩
          simp only [countD_append]
          rw [countD_all_detail hC]
          rw [countD_pwPagTasks]
          omega
      · rename_i jid hdata
        have htl : t.isDetail = true := by simp [PwTask.isDetail, hdata]
        rw [htl] at h1
        simp at h1
        split
        · exact ⟨by dsimp only; omega, h2⟩
        · split
          · exact ⟨by dsimp only; omega, h2⟩
          · split
            · exact ⟨by dsimp only; omega, h2⟩
            · exact ⟨by dsimp only; omega, h2⟩

/-- The run-level quota bound for the Playwright driver. -/
theorem pwRun_quota (cfg : PwCfg) (world : PwWorld) (fuel : Nat) (seeds : List String) :
    (pwRun fuel cfg world (pwInit seeds)).saved ≤ cfg.T := by
  have hinit : pwQuotaInv cfg.T (pwInit seeds) := by
    constructor
    · simp only [pwInit]
      have : countD (seeds.map fun u => (⟨u, .list 1⟩ : PwTask)) = 0 := by
        induction seeds with
        | nil => rfl
        | cons a l ih => simp [countD, List.countP_cons, PwTask.isDetail]
      simp [this]
    · simp [pwInit]
  obtain ⟨ha, hb⟩ :=
    pwRun_preserve cfg world (pwQuotaInv cfg.T) (pwStep_quota cfg world) fuel (pwInit seeds) hinit
  omega

theorem pwCfgOfInput_P_pos (rw mp : Option Int) (cd : Bool) :
    1 ≤ (pwCfgOfInput rw mp cd).P := by
  simp only [pwCfgOfInput, parseNumber]
  cases mp with
  | none => decide
  | some n =>
    dsimp only
    split
    · rename_i h
      omega
    · decide

theorem listLogBounded_append {P : Nat} {l₁ l₂ : List PwTask} :
    listLogBounded P (l₁ ++ l₂) = (listLogBounded P l₁ && listLogBounded P l₂) := by
  simp [listLogBounded, List.all_append]

theorem pwEnqueueLoop_ids (T saved : Nat) (base : String) :
    ∀ (hrefs seen : List String) (dE : Nat),
      (∀ x ∈ seen, x ∈ (pwEnqueueLoop T saved base hrefs seen dE).1) ∧
        (∀ t ∈ (pwEnqueueLoop T saved base hrefs seen dE).2.2, ∃ j,
            t.data = PwTaskData.detail j ∧ extractJobIdFromUrl t.url = some j ∧
              j ∈ (pwEnqueueLoop T saved base hrefs seen dE).1 ∧ j ∉ seen) ∧
        (detailIds (pwEnqueueLoop T saved base hrefs seen dE).2.2).Nodup := by
  intro hrefs
  induction hrefs with
  | nil =>
    intro seen dE
    refine ⟨fun x hx => ?_, fun t ht => ?_, ?_⟩
    · simpa [pwEnqueueLoop] using hx
    · simp [pwEnqueueLoop] at ht
    · simp [pwEnqueueLoop, detailIds]
  | cons href hs ih =>
    intro seen dE
    simp only [pwEnqueueLoop]
    split
    · refine ⟨fun x hx => hx, fun t ht => ?_, ?_⟩
      · simp at ht
      · simp [detailIds]
    · split
      · exact ih seen dE
      · split
        · exact ih seen dE
        · split
          · exact ih seen dE
          · rename_i jid hid hskip
            have hjid : jid ∉ seen := by
              intro hmem
              apply hskip
              simp [hmem]
            obtain ⟨d1, d2, d3⟩ := ih (jid :: seen) (dE + 1)
            refine ⟨fun x hx => d1 x (List.mem_cons_of_mem _ hx), fun t ht => ?_, ?_⟩
            · rcases List.mem_cons.mp ht with h | h
              · subst h
                exact ⟨jid, rfl, hid, d1 jid (List.mem_cons_self _ _), hjid⟩
              · obtain ⟨j, hj1, hj2, hj3, hj4⟩ := d2 t h
                exact ⟨j, hj1, hj2, hj3, fun hc => hj4 (List.mem_cons_of_mem _ hc)⟩
            · simp only [detailIds, List.filterMap_cons, detailId]
              simp only [detailIds] at d3
              refine List.nodup_cons.mpr ⟨?_, d3⟩
              intro hmem
              obtain ⟨t, ht, hdt⟩ := List.mem_filterMap.mp hmem
              obtain ⟨j, hj1, hj2, hj3, hj4⟩ := d2 t ht
              have : j = jid := by
                simp [detailId, hj1] at hdt
                exact hdt
              exact hj4 (this ▸ List.mem_cons_self _ _)

theorem pwStep_listBound (cfg : PwCfg) (world : PwWorld) :
    ∀ st, listLogBounded cfg.P st.log = true →
      listLogBounded cfg.P (pwStep cfg world st).log = true := by
  intro st h
  cases hq : st.queue with
  | nil => simpa [pwStep, hq] using h
  | cons t rest =>
    simp only [pwStep, hq]
    split
    · exact h
    · split
      · rename_i pageNo hdata
        split
        · exact h
        · obtain ⟨_, d2, _⟩ :=
            pwEnqueueLoop_ids cfg.T st.saved t.url
              (dedupKeepFirst ((world t.url).anchors.filter containsJobsId)) st.seen
              st.detailEnqueued
          rw [listLogBounded_append, listLogBounded_append, Bool.and_eq_true, Bool.and_eq_true]
          refine ⟨⟨h, ?_⟩, ?_⟩
          · rw [listLogBounded]
            rw [List.all_eq_true]
            intro x hx
            obtain ⟨j, hj1, _, _, _⟩ := d2 x hx
            simp [hj1]
          · rw [listLogBounded, List.all_eq_true]
            intro u hu
            have hdata := pwPagTasks_data u hu
            have hcond := pwPagTasks_mem_cond u hu
            rw [Bool.and_eq_true] at hcond
            have hlt : pageNo < cfg.P := by simpa using hcond.1
            simp [hdata]
            omega
      · split
        · exact h
        · split
          · exact h
          · split
            · exact h
            · exact h

/-- The run-level pagination bound for the Playwright driver, under the
configuration normalization of the source. -/
theorem pwRun_listLog (rw mp : Option Int) (cd : Bool) (fuel : Nat) (world : PwWorld)
    (seeds : List String) :
    listLogBounded (pwCfgOfInput rw mp cd).P
      (pwRun fuel (pwCfgOfInput rw mp cd) world (pwInit seeds)).log = true := by
  have hP := pwCfgOfInput_P_pos rw mp cd
  have hinit : listLogBounded (pwCfgOfInput rw mp cd).P (pwInit seeds).log = true := by
    simp only [pwInit, listLogBounded, List.all_eq_true]
    intro x hx
    simp only [List.mem_map] at hx
    obtain ⟨u, _, hu⟩ := hx
    subst hu
    simpa using hP
  exact
    pwRun_preserve (pwCfgOfInput rw mp cd) world
      (fun st => listLogBounded (pwCfgOfInput rw mp cd).P st.log = true)
      (pwStep_listBound (pwCfgOfInput rw mp cd) world) fuel (pwInit seeds) hinit

theorem detailIds_append (l₁ l₂ : List PwTask) :
    detailIds (l₁ ++ l₂) = detailIds l₁ ++ detailIds l₂ := by
  simp [detailIds]

theorem detailIds_pwPagTasks (url : String) (pageNo : Nat) (cond : Bool) :
    detailIds (pwPagTasks url pageNo cond) = [] := by
  unfold pwPagTasks
  split
  · split
    · rfl
    · rfl
  · rfl

theorem pwStep_idInv (cfg : PwCfg) (world : PwWorld) :
    ∀ st, pwIdInv st → pwIdInv (pwStep cfg world st) := by
  intro st h
  obtain ⟨h1, h2, h3⟩ := h
  cases hq : st.queue with
  | nil => simpa [pwStep, hq] using ⟨h1, h2, h3⟩
  | cons t rest =>
    simp only [pwStep, hq]
    split
    · exact ⟨h1, h2, h3⟩
    · split
      · rename_i pageNo hdata
        split
        · exact ⟨h1, h2, h3⟩
        · obtain ⟨d1, d2, d3⟩ :=
            pwEnqueueLoop_ids cfg.T st.saved t.url
              (dedupKeepFirst ((world t.url).anchors.filter containsJobsId)) st.seen
              st.detailEnqueued
          refine ⟨?_, ?_, ?_⟩
          · dsimp only
            rw [detailIds_append, detailIds_append, detailIds_pwPagTasks, List.append_nil,
              List.nodup_append]
            refine ⟨h1, ?_, ?_⟩
            · simpa [detailIds] using d3
            · intro j hj hj'
              obtain ⟨u, hu, hdu⟩ := List.mem_filterMap.mp hj'
              obtain ⟨j', hj1, _, _, hj4⟩ := d2 u hu
              have hjj : j' = j := by simpa [detailId, hj1] using hdu
              exact hj4 (hjj ▸ h2 j hj)
          · dsimp only
            rw [detailIds_append, detailIds_append, detailIds_pwPagTasks, List.append_nil]
            intro j hj
            rcases List.mem_append.mp hj with hj | hj
            · exact d1 j (h2 j hj)
            · obtain ⟨u, hu, hdu⟩ := List.mem_filterMap.mp hj
              obtain ⟨j', hj1, _, hj3, _⟩ := d2 u hu
              have hjj : j' = j := by simpa [detailId, hj1] using hdu
              exact hjj ▸ hj3
          · dsimp only
            intro u hu j hj
            rcases List.mem_append.mp hu with hu | hu
            · rcases List.mem_append.mp hu with hu | hu
              · exact h3 u hu j hj
              · obtain ⟨j', hj1, hj2, _, _⟩ := d2 u hu
                have : j' = j := by
                  rw [hj1] at hj
                  exact (PwTaskData.detail.injEq _ _).mp hj
                exact this ▸ hj2
            · have := pwPagTasks_data u hu
              rw [this] at hj
              exact absurd hj (by simp)
      · split
        · exact ⟨h1, h2, h3⟩
        · split
          · exact ⟨h1, h2, h3⟩
          · split
            · exact ⟨h1, h2, h3⟩
            · exact ⟨h1, h2, h3⟩

/-- Run-level dedup property of the Playwright driver. -/
theorem pwRun_idInv (cfg : PwCfg) (world : PwWorld) (fuel : Nat) (seeds : List String) :
    pwIdInv (pwRun fuel cfg world (pwInit seeds)) := by
  have hinit : pwIdInv (pwInit seeds) := by
    have hids : detailIds (seeds.map fun u => (⟨u, .list 1⟩ : PwTask)) = [] := by
      induction seeds with
      | nil => rfl
      | cons a l ih => simp [detailIds, List.filterMap_cons, detailId]
    refine ⟨?_, ?_, ?_⟩
    · simp [pwInit, hids]
    · simp [pwInit, hids]
    · intro t ht j hj
      simp only [pwInit, List.mem_map] at ht
      obtain ⟨u, _, hu⟩ := ht
      rw [← hu] at hj
      exact absurd hj (by simp)
  exact pwRun_preserve cfg world pwIdInv (pwStep_idInv cfg world) fuel (pwInit seeds) hinit

theorem nodupStr_iff (l : List String) : nodupStr l = true ↔ l.Nodup := by
  induction l with
  | nil => simp [nodupStr]
  | cons x xs ih => simp [nodupStr, ih]

/-- C1, counterexample: on a detail page whose extraction cascade yields a
title and a location but no company, the Playwright variant's
`validateJobItem` accepts the record and it is pushed to the dataset with
an empty `company` — so a record with an empty required field does reach
the sink, contradicting the claim. -/
theorem claim_C1_counterexample :
    (pwDetailResult ⟨some "Engineer", none, some "Lahore", none, none, none, none⟩
          "https://www.rozee.pk/x-jobs-9").map Job.company = some "" := by
  decide

/-- C1 (amended): the CheerioCrawler variant does enforce the rule — every
record it saves has non-empty title and company; the Playwright variant's
`validateJobItem` instead requires a truthy title and url plus a truthy
company *or location*, and the `part_003` variant saves whenever title *or*
company is truthy, so those two variants can sink records with an empty
company. -/
theorem claim_C1_amended :
    (∀ (d : ChDetailPage) (url now : String),
        ((chDetailResult d url now).all fun j => !(j.title == "") && !(j.company == "")) = true) ∧
      (∀ item : Job,
          validateJobItem item = true ↔
            item.title ≠ "" ∧ item.url ≠ "" ∧ (item.company ≠ "" ∨ item.location ≠ "")) ∧
      part3Saves (some "Engineer") none = true := by
  refine ⟨?_, ?_, by decide⟩
  · intro d url now
    rw [chDetailResult]
    split
    · rfl
    · rename_i hcond
      rw [Bool.or_eq_true] at hcond
      push_neg at hcond
      simp only [Option.all_some]
      rw [Bool.and_eq_true]
      constructor
      · simpa using fun h => hcond.1 (by simpa using h)
      · simpa using fun h => hcond.2 (by simpa using h)
  · intro item
    rw [validateJobItem]
    constructor
    · intro h
      split at h
      · exact absurd h (by simp)
      · rename_i h1
        split at h
        · exact absurd h (by simp)
        · rename_i h2
          rw [Bool.or_eq_true] at h1
          rw [Bool.and_eq_true] at h2
          push_neg at h1 h2
          refine ⟨by simpa using h1.1, by simpa using h1.2, ?_⟩
          by_cases hc : item.company = ""
          · exact Or.inr (by simpa using h2 (by simpa using hc))
          · exact Or.inl hc
    · rintro ⟨ht, hu, hcl⟩
      split
      · rename_i h1
        rw [Bool.or_eq_true] at h1
        rcases h1 with h1 | h1
        · exact absurd (by simpa using h1) ht
        · exact absurd (by simpa using h1) hu
      · split
        · rename_i h2
          rw [Bool.and_eq_true] at h2
          rcases hcl with hc | hc
          · exact absurd (by simpa using h2.1) hc
          · exact absurd (by simpa using h2.2) hc
        · rfl

/-- C2, counterexample: in the CheerioCrawler variant, with
`MAX_ITEMS = 1`, two listing seeds of one job link each both enqueue a
Detail request before any save happens (each is limited only by
`MAX_ITEMS - saved`, and the detail handler saves unconditionally), so the
run saves 2 records — exceeding the target of 1. -/
theorem claim_C2_counterexample :
    (chRun 4 ⟨1, 5, true, "t"⟩ chWorldC2 (chInit ["https://x/l1", "https://x/l2"])).saved = 2 := by
  decide

/-- C2 (amended): the Playwright variant respects the quota: for every
fuel, configuration, page world and seed set, the final saved count never
exceeds `RESULTS_WANTED`, because details are enqueued only while
`saved + detailEnqueued` is below the target and every save consumes an
enqueued detail.  The CheerioCrawler variant can exceed the target (see
the counterexample). -/
theorem claim_C2_amended (fuel : Nat) (cfg : PwCfg) (world : PwWorld) (seeds : List String) :
    (pwRun fuel cfg world (pwInit seeds)).saved ≤ cfg.T :=
  pwRun_quota cfg world fuel seeds

/-- C3, counterexample: the Playwright LIST handler enqueues Detail
requests without consulting `collectDetails`; with `collectDetails =
false` a listing page with one job anchor still puts a Detail task into
the queue, contradicting "no Detail task is ever enqueued". -/
theorem claim_C3_counterexample :
    ((pwRun 1 ⟨5, 1, false⟩ pwWorldC3
          (pwInit ["https://www.rozee.pk/job/jsearch/q/all/fc/1"])).log.any
        fun t => t.isDetail) = true := by
  decide

/-- C4: for every run of the Playwright driver under the source's
configuration normalization (`parseNumber`, which forces `MAX_PAGES ≥ 1`),
every Listing task ever enqueued — the seeds at page 1 and every
pagination enqueue, which only fires while `pageNo < MAX_PAGES` and
carries `pageNo + 1` — has page index at most `MAX_PAGES`. -/
theorem claim_C4 (rw mp : Option Int) (cd : Bool) (fuel : Nat) (world : PwWorld)
    (seeds : List String) :
    listLogBounded (pwCfgOfInput rw mp cd).P
      (pwRun fuel (pwCfgOfInput rw mp cd) world (pwInit seeds)).log = true :=
  pwRun_listLog rw mp cd fuel world seeds

/-- C5: both `toAbs` variants return `null` exactly when standard URL
resolution of the href against the base fails; as total functions of the
embedding they cannot throw, mirroring the `try`/`catch` that converts the
`URL` constructor's exception into `null`. -/
theorem claim_C5 (href base : String) :
    (toAbsPW href base = none ↔ urlResolve href base = none) ∧
      (toAbsCh href base = none ↔ urlResolve href base = none) := by
  constructor
  · exact Iff.rfl
  · simp [toAbsCh]

/-- C6, counterexample: the Playwright variant's `toAbs` does not strip
fragments: resolving `/a#b` yields a URL that still contains `#`,
contradicting "no normalized URL ever contains a '#' fragment". -/
theorem claim_C6_counterexample :
    toAbsPW "/a#b" "https://www.rozee.pk" = some "https://www.rozee.pk/a#b" ∧
      "https://www.rozee.pk/a#b".data.contains '#' = true := by
  decide

/-- C6 (amended): the CheerioCrawler variant's `toAbs` (shared by
`part_001` and `part_005`) resolves against the base and keeps only the
part before the first `#`, so none of its outputs contains a fragment
marker; the Playwright variant resolves but does not strip. -/
theorem claim_C6_amended (href base : String) :
    ((toAbsCh href base).all fun u => !(u.data.contains '#')) = true := by
  cases h : urlResolve href base with
  | none => simp [toAbsCh, h]
  | some r =>
    simp only [toAbsCh, h, Option.map_some', Option.all_some, Bool.not_eq_true']
    have hmem : '#' ∉ r.data.takeWhile (fun c => c ≠ '#') := by
      intro hm
      simpa using List.mem_takeWhile_imp hm
    simpa using hmem

/-- C7: in `24hours` mode the date filter includes "3 hours ago" (3 ≤ 24),
excludes "5 days ago" (120 > 24), and includes any posting text on which
all four layered patterns — relative hours, relative days,
today/yesterday, absolute month-day-year — fail to match (the fail-open
default). -/
theorem claim_C7 (nowMs : Int) :
    isWithinDateFilter nowMs (some "3 hours ago") "24hours" = true ∧
      isWithinDateFilter nowMs (some "5 days ago") "24hours" = false ∧
      ∀ s : String,
        matchNumWord "hour".data (lcString s).data = none →
        matchNumWord "day".data (lcString s).data = none →
        containsSub (lcString s).data "today".data = false →
        containsSub (lcString s).data "yesterday".data = false →
        matchMonthDate (lcString s).data = none →
        isWithinDateFilter nowMs (some s) "24hours" = true := by
  refine ⟨rfl, rfl, ?_⟩
  intro s h1 h2 h3 h4 h5
  by_cases hs : s = ""
  · subst hs; rfl
  · simp only [isWithinDateFilter, jsFalsy, Option.getD_some, hs]
    simp [h1, h2, h3, h4, h5]

/-- C7, witness: the unparseable posting text "recently" matches none of
the patterns and is included. -/
theorem claim_C7_witness :
    (matchNumWord "hour".data (lcString "recently").data = none ∧
        matchNumWord "day".data (lcString "recently").data = none ∧
        containsSub (lcString "recently").data "today".data = false ∧
        containsSub (lcString "recently").data "yesterday".data = false ∧
        matchMonthDate (lcString "recently").data = none) ∧
      isWithinDateFilter 0 (some "recently") "24hours" = true :=
  ⟨⟨by decide, by decide, by decide, by decide, by decide⟩,
    (claim_C7 0).2.2 "recently" (by decide) (by decide) (by decide) (by decide) (by decide)⟩

/-- C10: `extractJobIdFromUrl` is `null` exactly on URLs that fail to
parse, returns the trailing digit run of the pathname when there is one
and the whole pathname otherwise (two representative evaluations), and in
every Playwright run the Detail tasks ever enqueued carry pairwise
distinct job ids, each equal to the id extracted from the task's URL — so
two distinct URLs whose paths end in the same digit run can never both be
enqueued. -/
theorem claim_C10 :
    (∀ url, extractJobIdFromUrl url = none ↔ parseAbsUrl url = none) ∧
      extractJobIdFromUrl "https://www.rozee.pk/company/abc-jobs-123" = some "123" ∧
      extractJobIdFromUrl "https://www.rozee.pk/about" = some "/about" ∧
      ∀ (cfg : PwCfg) (world : PwWorld) (fuel : Nat) (seeds : List String),
        detailLogOk (pwRun fuel cfg world (pwInit seeds)).log = true := by
  refine ⟨?_, by decide, by decide, ?_⟩
  · intro url
    cases h : parseAbsUrl url with
    | none => simp [extractJobIdFromUrl, h]
    | some u =>
      have hne : extractJobIdFromUrl url ≠ none := by
        simp only [extractJobIdFromUrl, h]
        split <;> (split <;> simp)
      simp [hne, h]
  · intro cfg world fuel seeds
    obtain ⟨h1, _, h3⟩ := pwRun_idInv cfg world fuel seeds
    rw [detailLogOk, Bool.and_eq_true]
    constructor
    · exact (nodupStr_iff _).mpr h1
    · rw [List.all_eq_true]
      intro t ht
      cases hd : t.data with
      | list n => simp
      | detail j =>
        have := h3 t ht j hd
        simp [this]

theorem chPagTasks_data {nextHref : Option String} {url : String} {pageNo : Nat} {cond : Bool} :
    ∀ u ∈ chPagTasks nextHref url pageNo cond, u.data = ChTaskData.list (pageNo + 1) := by
  intro u hu
  cases nextHref with
  | none => simp [chPagTasks] at hu
  | some nh =>
    simp only [chPagTasks] at hu
    split at hu
    · split at hu
      · rcases List.mem_singleton.mp hu with h
        subst h
        rfl
      · simp at hu
    · simp at hu

theorem chRun_preserve (cfg : ChCfg) (world : ChWorld) (Inv : ChState → Prop)
    (h : ∀ st, Inv st → Inv (chStep cfg world st)) :
    ∀ fuel st, Inv st → Inv (chRun fuel cfg world st) := by
  intro fuel
  induction fuel with
  | zero => intro st hst; exact hst
  | succ n ih =>
    intro st hst
    cases hq : st.queue with
    | nil => simpa [chRun, hq] using hst
    | cons a l =>
      have : chRun (n + 1) cfg world st = chRun n cfg world (chStep cfg world st) := by
        simp [chRun, hq]
      rw [this]
      exact ih _ (h st hst)

theorem chStep_noDetail (cfg : ChCfg) (world : ChWorld) (hcd : cfg.collectDetails = false) :
    ∀ st, chNoDetailInv st → chNoDetailInv (chStep cfg world st) := by
  intro st h
  obtain ⟨h1, h2, h3⟩ := h
  cases hq : st.queue with
  | nil => simpa [chStep, hq] using ⟨h1, h2, h3⟩
  | cons t rest =>
    rw [hq, List.all_cons, Bool.and_eq_true] at h2
    obtain ⟨ht, hrest⟩ := h2
    cases htd : t.data with
    | detail =>
      exfalso
      rw [ChTask.isDetail, htd] at ht
      simp at ht
    | list pageNo =>
      simp only [chStep, hq, htd, hcd]
      split
      · exact ⟨h1, hrest, h3⟩
      · refine ⟨h1, ?_, ?_⟩
        · dsimp only
          rw [List.all_eq_true]
          intro u hu
          rcases List.mem_append.mp hu with hu | hu
          · rcases List.mem_append.mp hu with hu | hu
            · exact List.all_eq_true.mp hrest u hu
            · simp at hu
          · have := chPagTasks_data u hu
            simp [ChTask.isDetail, this]
        · dsimp only
          rw [List.all_eq_true]
          intro u hu
          rcases List.mem_append.mp hu with hu | hu
          · rcases List.mem_append.mp hu with hu | hu
            · exact List.all_eq_true.mp h3 u hu
            · simp at hu
          · have := chPagTasks_data u hu
            simp [ChTask.isDetail, this]

theorem chRun_noDetail (fuel M P : Nat) (now : String) (world : ChWorld) (seeds : List String) :
    chNoDetailInv (chRun fuel ⟨M, P, false, now⟩ world (chInit seeds)) := by
  have hinit : chNoDetailInv (chInit seeds) := by
    refine ⟨rfl, ?_, ?_⟩ <;>
    · simp only [chInit, List.all_eq_true]
      intro u hu
      simp only [List.mem_map] at hu
      obtain ⟨x, _, hx⟩ := hu
      subst hx
      rfl
  exact
    chRun_preserve ⟨M, P, false, now⟩ world chNoDetailInv
      (chStep_noDetail ⟨M, P, false, now⟩ world rfl) fuel (chInit seeds) hinit

theorem pwStep_savedZero (cfg : PwCfg) (world : PwWorld) (hcd : cfg.collectDetails = false) :
    ∀ st, st.saved = 0 → (pwStep cfg world st).saved = 0 := by
  intro st h
  cases hq : st.queue with
  | nil => simpa [pwStep, hq] using h
  | cons t rest =>
    simp only [pwStep, hq]
    split
    · exact h
    · split
      · split
        · exact h
        · exact h
      · split
        · exact h
        · rename_i hnot
          rw [hcd] at hnot
          simp at hnot

/-- C3 (amended): with `collectDetails = false`, the CheerioCrawler
variant never enqueues a Detail task (its enqueue is guarded by
`collectDetails`) and saves nothing; the Playwright variant still enqueues
Detail tasks (see the counterexample) but its detail handler returns
before extracting or saving, so it also saves nothing. -/
theorem claim_C3_amended :
    (∀ (fuel M P : Nat) (now : String) (world : ChWorld) (seeds : List String),
        (chRun fuel ⟨M, P, false, now⟩ world (chInit seeds)).saved = 0 ∧
          ((chRun fuel ⟨M, P, false, now⟩ world (chInit seeds)).log.all
              fun t => !t.isDetail) = true) ∧
      ∀ (fuel T P : Nat) (world : PwWorld) (seeds : List String),
        (pwRun fuel ⟨T, P, false⟩ world (pwInit seeds)).saved = 0 := by
  constructor
  · intro fuel M P now world seeds
    obtain ⟨v1, _, v3⟩ := chRun_noDetail fuel M P now world seeds
    exact ⟨v1, v3⟩
  · intro fuel T P world seeds
    exact
      pwRun_preserve ⟨T, P, false⟩ world (fun st => st.saved = 0)
        (pwStep_savedZero ⟨T, P, false⟩ world rfl) fuel (pwInit seeds) rfl

theorem collapseWsAux_true (r : List Char) :
    collapseWsAux true r = collapseWs (r.dropWhile isJsWs) := by
  induction r with
  | nil => rfl
  | cons c r ih =>
    by_cases h : isJsWs c = true
    · simpa [collapseWsAux, h, List.dropWhile] using ih
    · simp [collapseWsAux, collapseWs, List.dropWhile, h]

theorem collapseWs_copy (w : List Char) (hw : ∀ x ∈ w, isJsWs x = false) (r : List Char) :
    collapseWsAux false (w ++ r) = w ++ collapseWsAux false r := by
  induction w with
  | nil => rfl
  | cons c w' ih =>
    have hc := hw c (List.mem_cons_self _ _)
    have ih' := ih fun x hx => hw x (List.mem_cons_of_mem _ hx)
    simp [collapseWsAux, hc, ih']

theorem wordsAux_copy (w : List Char) (hw : ∀ x ∈ w, isJsWs x = false) :
    ∀ (cur r : List Char), wordsAux cur (w ++ r) = wordsAux (w.reverse ++ cur) r := by
  induction w with
  | nil => intro cur r; rfl
  | cons c w' ih =>
    intro cur r
    have hc := hw c (List.mem_cons_self _ _)
    have ih' := ih (fun x hx => hw x (List.mem_cons_of_mem _ hx)) (c :: cur) r
    simp only [List.cons_append, wordsAux, hc, Bool.false_eq_true, if_false, List.append_eq]
    rw [ih']
    congr 1
    simp

theorem wordsOf_dropWhile (l : List Char) : wordsOf (l.dropWhile isJsWs) = wordsOf l := by
  induction l with
  | nil => rfl
  | cons c r ih =>
    by_cases h : isJsWs c = true
    · simpa [wordsOf, wordsAux, List.dropWhile, h] using ih
    · simp [List.dropWhile, h]

theorem wordsAux_ne_nil : ∀ (l cur : List Char), cur ≠ [] → wordsAux cur l ≠ [] := by
  intro l
  induction l with
  | nil =>
    intro cur h
    simp [wordsAux, h]
  | cons c r ih =>
    intro cur h
    by_cases hc : isJsWs c = true
    · have hne : ¬cur.isEmpty = true := by simpa using h
      simp [wordsAux, hc, hne]
    · have := ih (c :: cur) (by simp)
      simpa [wordsAux, hc] using this

theorem dropWhile_nonWs {l : List Char} (h : ∀ x ∈ l, isJsWs x = false) :
    l.dropWhile isJsWs = l := by
  cases l with
  | nil => rfl
  | cons c r => simp [List.dropWhile, h c (List.mem_cons_self _ _)]

theorem jsTrimL_nonWs {l : List Char} (h : ∀ x ∈ l, isJsWs x = false) : jsTrimL l = l := by
  unfold jsTrimL
  rw [dropWhile_nonWs h, dropWhile_nonWs fun x hx => h x (List.mem_reverse.mp hx)]
  simp

theorem jsTrimL_space_cons (x : List Char) : jsTrimL (' ' :: x) = jsTrimL x := by
  have h : isJsWs ' ' = true := by decide
  simp [jsTrimL, List.dropWhile, h]

theorem jsTrimL_append_space {w : List Char} (hw : ∀ x ∈ w, isJsWs x = false) :
    jsTrimL (w ++ [' ']) = w := by
  cases w with
  | nil => decide
  | cons a w' =>
    have ha := hw a (List.mem_cons_self _ _)
    unfold jsTrimL
    rw [show ((a :: w') ++ [' ']).dropWhile isJsWs = (a :: w') ++ [' '] by
      simp [List.dropWhile, ha]]
    rw [show ((a :: w') ++ [' ']).reverse = ' ' :: (a :: w').reverse by simp]
    rw [show (' ' :: (a :: w').reverse).dropWhile isJsWs = ((a :: w').reverse).dropWhile isJsWs by
      simp [List.dropWhile, show isJsWs ' ' = true from by decide]]
    rw [dropWhile_nonWs fun x hx => hw x (List.mem_reverse.mp hx)]
    simp

theorem jsTrimL_mid (a : Char) (w' : List Char) (hw : ∀ x ∈ a :: w', isJsWs x = false)
    (e : Char) (he : isJsWs e = false) (X₂ : List Char) :
    jsTrimL ((a :: w') ++ ' ' :: e :: X₂) = (a :: w') ++ ' ' :: jsTrimL (e :: X₂) := by
  have ha := hw a (List.mem_cons_self _ _)
  have hXne : (e :: X₂).reverse.dropWhile isJsWs ≠ [] := by
    intro hnil
    have := List.dropWhile_eq_nil_iff.mp hnil e (by simp)
    rw [he] at this
    exact absurd this (by simp)
  unfold jsTrimL
  rw [show ((a :: w') ++ ' ' :: e :: X₂).dropWhile isJsWs = (a :: w') ++ ' ' :: e :: X₂ by
    simp [List.dropWhile, ha]]
  rw [show ((a :: w') ++ ' ' :: e :: X₂).reverse
      = (e :: X₂).reverse ++ ' ' :: (a :: w').reverse by simp]
  rw [List.dropWhile_append]
  rw [if_neg (by simpa using hXne)]
  rw [show ((e :: X₂).dropWhile isJsWs) = e :: X₂ by simp [List.dropWhile, he]]
  simp

theorem dropWhile_head_false {p : Char → Bool} :
    ∀ (l : List Char) (d : Char) (t : List Char), l.dropWhile p = d :: t → p d = false := by
  intro l
  induction l with
  | nil => intro d t h; exact absurd h (by simp)
  | cons a l' ih =>
    intro d t h
    by_cases ha : p a = true
    · rw [List.dropWhile_cons, if_pos ha] at h
      exact ih d t h
    · rw [List.dropWhile_cons, if_neg ha] at h
      injection h with h1 _
      subst h1
      simpa using ha

theorem collapse_trim_words : ∀ (n : Nat) (l : List Char), l.length ≤ n →
    jsTrimL (collapseWs l) = joinWordsL (wordsOf l) := by
  intro n
  induction n with
  | zero =>
    intro l h
    have hnil : l = [] := List.eq_nil_of_length_eq_zero (Nat.le_zero.mp h)
    subst hnil
    rfl
  | succ n ih =>
    intro l hlen
    cases l with
    | nil => rfl
    | cons c r =>
      have hlr : r.length ≤ n := by
        simp only [List.length_cons] at hlen
        omega
      by_cases hc : isJsWs c = true
      · have e1 : collapseWs (c :: r) = ' ' :: collapseWs (r.dropWhile isJsWs) := by
          simp [collapseWs, collapseWsAux, hc, collapseWsAux_true]
        have e2 : wordsOf (c :: r) = wordsOf (r.dropWhile isJsWs) := by
          rw [wordsOf_dropWhile]
          simp [wordsOf, wordsAux, hc]
        rw [e1, jsTrimL_space_cons, e2]
        apply ih
        have h1 : (r.dropWhile isJsWs).length ≤ r.length := (List.dropWhile_sublist _).length_le
        omega
      · have hw : ∀ x ∈ c :: r.takeWhile (fun x => !isJsWs x), isJsWs x = false := by
          intro x hx
          rcases List.mem_cons.mp hx with h | h
          · subst h; simpa using hc
          · simpa using List.mem_takeWhile_imp h
        have hsplit : c :: r
            = (c :: r.takeWhile (fun x => !isJsWs x)) ++ r.dropWhile (fun x => !isJsWs x) := by
          rw [List.cons_append, List.takeWhile_append_dropWhile]
        have e1 : collapseWs (c :: r)
            = (c :: r.takeWhile (fun x => !isJsWs x)) ++
                collapseWsAux false (r.dropWhile (fun x => !isJsWs x)) := by
          conv_lhs => rw [hsplit]
          exact collapseWs_copy _ hw _
        have e2 : wordsOf (c :: r)
            = wordsAux (c :: r.takeWhile (fun x => !isJsWs x)).reverse
                (r.dropWhile (fun x => !isJsWs x)) := by
          conv_lhs => rw [hsplit]
          rw [show wordsOf ((c :: r.takeWhile fun x => !isJsWs x) ++
                r.dropWhile fun x => !isJsWs x)
              = wordsAux ((c :: r.takeWhile fun x => !isJsWs x).reverse ++ [])
                  (r.dropWhile fun x => !isJsWs x) from wordsAux_copy _ hw _ _]
          rw [List.append_nil]
        cases hR : r.dropWhile (fun x => !isJsWs x) with
        | nil =>
          rw [hR] at e1 e2
          rw [e1, e2]
          rw [show collapseWsAux false ([] : List Char) = [] from rfl, List.append_nil]
          rw [jsTrimL_nonWs hw]
          have hrev : ((c :: r.takeWhile fun x => !isJsWs x).reverse).isEmpty = false := by
            simp
          simp [wordsAux, hrev, joinWordsL]
        | cons d r'' =>
          have hd : isJsWs d = true := by
            have := dropWhile_head_false r d r'' hR
            simpa using this
          have hlr'' : r''.length + 1 ≤ r.length := by
            have hsub : List.Sublist (d :: r'') r := hR ▸ List.dropWhile_sublist _
            simpa using hsub.length_le
          rw [hR] at e1 e2
          have e1' : collapseWsAux false (d :: r'')
              = ' ' :: collapseWs (r''.dropWhile isJsWs) := by
            simp [collapseWsAux, hd, collapseWsAux_true]
          have hrevne : ((c :: r.takeWhile fun x => !isJsWs x).reverse).isEmpty = false := by
            simp
          have e2' : wordsAux (c :: r.takeWhile (fun x => !isJsWs x)).reverse (d :: r'')
              = (c :: r.takeWhile (fun x => !isJsWs x)) :: wordsOf (r''.dropWhile isJsWs) := by
            rw [wordsOf_dropWhile]
            simp [wordsAux, hd, hrevne, wordsOf]
          cases hzc : r''.dropWhile isJsWs with
          | nil =>
            rw [e1, e1', hzc, e2, e2', hzc]
            rw [show (' ' :: collapseWs []) = [' '] from rfl]
            rw [jsTrimL_append_space hw]
            rfl
          | cons e z₂ =>
            have he : isJsWs e = false := dropWhile_head_false r'' e z₂ hzc
            rw [e1, e1', hzc, e2, e2', hzc]
            have hcz : collapseWs (e :: z₂) = e :: collapseWsAux false z₂ := by
              simp [collapseWs, collapseWsAux, he]
            rw [hcz]
            rw [jsTrimL_mid c (r.takeWhile fun x => !isJsWs x) hw e he (collapseWsAux false z₂)]
            rw [← hcz]
            have hIH : jsTrimL (collapseWs (e :: z₂)) = joinWordsL (wordsOf (e :: z₂)) := by
              apply ih
              have h2 : (e :: z₂).length ≤ r''.length := hzc ▸ (List.dropWhile_sublist _).length_le
              omega
            rw [hIH]
            have hne : wordsOf (e :: z₂) ≠ [] := by
              have : wordsOf (e :: z₂) = wordsAux [e] z₂ := by
                simp [wordsOf, wordsAux, he]
              rw [this]
              exact wordsAux_ne_nil z₂ [e] (by simp)
            cases hq : wordsOf (e :: z₂) with
            | nil => exact absurd hq hne
            | cons q qs => rfl

/-- Absence of no-break spaces in collapsed output: every emitted character
is a plain space or a non-whitespace input character. -/
theorem collapseWsAux_mem (b : Bool) (l : List Char) :
    ∀ c ∈ collapseWsAux b l, c = ' ' ∨ (c ∈ l ∧ isJsWs c = false) := by
  induction l generalizing b with
  | nil => intro c hc; simp [collapseWsAux] at hc
  | cons a r ih =>
    intro c hc
    by_cases ha : isJsWs a = true
    · cases b with
      | true =>
        simp only [collapseWsAux, ha, if_true] at hc
        rcases ih true c hc with h | h
        · exact Or.inl h
        · exact Or.inr ⟨List.mem_cons_of_mem _ h.1, h.2⟩
      | false =>
        simp only [collapseWsAux, ha, if_true] at hc
        rcases List.mem_cons.mp hc with h | h
        · exact Or.inl h
        · rcases ih true c h with h' | h'
          · exact Or.inl h'
          · exact Or.inr ⟨List.mem_cons_of_mem _ h'.1, h'.2⟩
    · simp only [collapseWsAux, ha, Bool.false_eq_true, if_false] at hc
      rcases List.mem_cons.mp hc with h | h
      · subst h
        exact Or.inr ⟨List.mem_cons_self _ _, by simpa using ha⟩
      · rcases ih false c h with h' | h'
        · exact Or.inl h'
        · exact Or.inr ⟨List.mem_cons_of_mem _ h'.1, h'.2⟩

theorem collapseWs_nbsp_map (l : List Char) :
    (collapseWs l).map (fun c => if c = ' ' then ' ' else c) = collapseWs l := by
  have h : ∀ c ∈ collapseWs l, (if c = ' ' then ' ' else c) = c := by
    intro c hc
    rcases collapseWsAux_mem false l c hc with h | h
    · subst h; rfl
    · have : c ≠ ' ' := by
        intro hcc
        rw [hcc] at h
        exact absurd h.2 (by decide)
      simp [this]
  calc (collapseWs l).map (fun c => if c = ' ' then ' ' else c)
      = (collapseWs l).map id := List.map_congr_left h
    _ = collapseWs l := List.map_id _

theorem cleanTextS_eq_spec (s : String) : cleanTextS s = specTrimCollapse s := by
  rw [cleanTextS, specTrimCollapse]
  rw [show (⟨(collapseWs s.data).map fun c => if c = ' ' then ' ' else c⟩ : String)
      = ⟨collapseWs s.data⟩ from congrArg _ (collapseWs_nbsp_map s.data)]
  rw [jsTrim]
  exact congrArg _ (collapse_trim_words s.data.length s.data (le_refl _))

theorem foldl_dedup : ∀ (l acc : List String),
    l.foldl (fun acc p => if acc.contains p then acc else acc ++ [p]) acc
      = acc ++ dedupFirst (l.filter fun x => !acc.contains x) := by
  intro l
  induction l with
  | nil => intro acc; simp [dedupFirst]
  | cons x l ih =>
    intro acc
    by_cases hx : acc.contains x = true
    · have hmem : x ∈ acc := by simpa using hx
      rw [List.foldl_cons, if_pos hx, ih acc]
      rw [show (x :: l).filter (fun y => !acc.contains y) = l.filter (fun y => !acc.contains y)
        from by simp [List.filter_cons, hmem]]
    · have hmem : x ∉ acc := by simpa using hx
      rw [List.foldl_cons, if_neg hx, ih (acc ++ [x])]
      rw [show (x :: l).filter (fun y => !acc.contains y)
          = x :: l.filter (fun y => !acc.contains y) from by simp [List.filter_cons, hmem]]
      rw [show dedupFirst (x :: l.filter fun y => !acc.contains y)
          = x :: dedupFirst ((l.filter fun y => !acc.contains y).filter fun y => y ≠ x) from by
        simp only [dedupFirst]]
      rw [List.append_assoc, List.singleton_append]
      rw [List.filter_filter]
      have hlist : l.filter (fun y => !(acc ++ [x]).contains y)
          = l.filter (fun a => decide (a ≠ x) && !acc.contains a) := by
        apply List.filter_congr
        intro y _
        by_cases h1 : y ∈ acc <;> by_cases h2 : y = x <;> simp [h1, h2]
      rw [hlist]

theorem cleanText_some_eq (s : String) : cleanText (some s) = specTrimCollapse s := by
  rw [cleanText]
  by_cases h : s = ""
  · subst h
    rfl
  · rw [if_neg (by simpa [jsFalsy] using h)]
    exact cleanTextS_eq_spec s

/-- C9: `normalizeLocation` coincides with its specification — split on
commas, trim and whitespace-collapse each component (equal to joining the
maximal non-whitespace words with single spaces), drop empties, keep the
first occurrence of each distinct component, keep at most the first two,
join with a comma-space; the empty string on absent or empty input. -/
theorem claim_C9 (loc : Option String) : normalizeLocation loc = normalizeLocationSpec loc := by
  cases loc with
  | none => rfl
  | some s =>
    rw [normalizeLocation, normalizeLocationSpec]
    by_cases h : s = ""
    · simp [jsFalsy, h]
    · rw [if_neg (by simpa [jsFalsy] using h), if_neg h]
      dsimp only [Option.getD_some]
      have hmap : (splitOnCharL ',' s.data).map (fun p => cleanText (some ⟨p⟩))
          = (splitOnCharL ',' s.data).map (fun p => specTrimCollapse ⟨p⟩) :=
        List.map_congr_left fun p _ => cleanText_some_eq ⟨p⟩
      rw [hmap, foldl_dedup]
      rw [show ((((splitOnCharL ',' s.data).map fun p => specTrimCollapse ⟨p⟩).filter
            fun p => p ≠ "").filter fun x => !(([] : List String).contains x))
          = (((splitOnCharL ',' s.data).map fun p => specTrimCollapse ⟨p⟩).filter
            fun p => p ≠ "") from by simp]
      rw [List.nil_append]

theorem stripSlash_ne (d : Char) (hd : d ≠ '/') (X : List Char) :
    stripSlash (d :: X) = d :: X := by
  unfold stripSlash
  split
  · rename_i t heq
    injection heq with h1 _
    exact absurd h1 hd
  · rfl

theorem expectGt_ne (d : Char) (hd : d ≠ '>') (X : List Char) : expectGt (d :: X) = none := by
  unfold expectGt
  split
  · rename_i t heq
    injection heq with h1 _
    exact absurd h1 hd
  · rfl

theorem brAfterLt_seg (b rest : List Char) (hb : ∀ x ∈ b, x ≠ '>') :
    brAfterLt (b ++ '>' :: rest) = if brBody b = true then some rest else none := by
  have hgt : isJsWs '>' = false := by decide
  have hsub : ∀ x ∈ b.dropWhile isJsWs, x ∈ b := fun x hx => (List.dropWhile_sublist _).subset hx
  cases hdw : b.dropWhile isJsWs with
  | nil =>
    have h1 : (b ++ '>' :: rest).dropWhile isJsWs = '>' :: rest := by
      rw [List.dropWhile_append, hdw]
      simp [List.dropWhile, hgt]
    simp only [brAfterLt, h1, brBody, hdw]
    rfl
  | cons c b2 =>
    have hcgt : c ≠ '>' := hb c (hsub c (hdw ▸ List.mem_cons_self c b2))
    have h1 : (b ++ '>' :: rest).dropWhile isJsWs = c :: (b2 ++ '>' :: rest) := by
      rw [List.dropWhile_append, hdw]
      simp
    simp only [brAfterLt, h1, brBody, hdw]
    by_cases hcbB : (c = 'b' || c = 'B') = true
    · rw [if_pos hcbB]
      simp only [hcbB, Bool.true_and]
      cases b2 with
      | nil => simp
      | cons c2 b3 =>
        have hc2gt : c2 ≠ '>' :=
          hb c2 (hsub c2 (hdw ▸ List.mem_cons_of_mem c (List.mem_cons_self c2 b3)))
        simp only [List.cons_append]
        by_cases hc2rR : (c2 = 'r' || c2 = 'R') = true
        · rw [if_pos hc2rR]
          simp only [hc2rR, Bool.true_and]
          have hsub3 : ∀ x ∈ b3.dropWhile isJsWs, x ∈ b := fun x hx =>
            hsub x (hdw ▸ List.mem_cons_of_mem c (List.mem_cons_of_mem c2
              ((List.dropWhile_sublist _).subset hx)))
          cases hdw3 : b3.dropWhile isJsWs with
          | nil =>
            have h3 : (b3 ++ '>' :: rest).dropWhile isJsWs = '>' :: rest := by
              rw [List.dropWhile_append, hdw3]
              simp [List.dropWhile, hgt]
            rw [h3]
            simp [stripSlash, expectGt]
          | cons d ds =>
            have hdgt : d ≠ '>' := hb d (hsub3 d (hdw3 ▸ List.mem_cons_self d ds))
            have h3 : (b3 ++ '>' :: rest).dropWhile isJsWs = d :: (ds ++ '>' :: rest) := by
              rw [List.dropWhile_append, hdw3]
              simp
            rw [h3]
            by_cases hdsl : d = '/'
            · subst hdsl
              rw [show stripSlash ('/' :: (ds ++ '>' :: rest)) = ds ++ '>' :: rest from rfl]
              cases ds with
              | nil =>
                simp [expectGt]
              | cons e es =>
                have hegt : e ≠ '>' :=
                  hb e (hsub3 e (hdw3 ▸ List.mem_cons_of_mem _ (List.mem_cons_self e es)))
                rw [List.cons_append, expectGt_ne e hegt]
                simp
            · rw [stripSlash_ne d hdsl, expectGt_ne d hdgt]
              have hne1 : (d :: ds).isEmpty = false := rfl
              have hne2 : (d :: ds) ≠ ['/'] := by
                intro hcon
                injection hcon with h1 _
                exact hdsl h1
              simp [hne1, hne2]
        · have hc2rR' : (c2 = 'r' || c2 = 'R') = false := by simpa using hc2rR
          rw [if_neg hc2rR]
          simp [hc2rR']
    · have hcbB' : (c = 'b' || c = 'B') = false := by simpa using hcbB
      rw [if_neg hcbB]
      simp [hcbB']

theorem ciPrefix_ext (nm : List Char) (h : ∀ ch ∈ nm, lcChar ch ≠ lcChar '>') :
    ∀ (x rest : List Char), ciPrefix nm (x ++ '>' :: rest) = ciPrefix nm x := by
  induction nm with
  | nil => intro x rest; rfl
  | cons p ps ih =>
    intro x rest
    cases x with
    | nil =>
      have hp := h p (List.mem_cons_self _ _)
      simp [ciPrefix, hp]
    | cons c x' =>
      simp only [List.cons_append, ciPrefix, List.append_eq]
      rw [ih (fun ch hch => h ch (List.mem_cons_of_mem _ hch)) x' rest]

theorem ciPrefix_length {nm x : List Char} (h : ciPrefix nm x = true) : nm.length ≤ x.length := by
  induction nm generalizing x with
  | nil => simp
  | cons p ps ih =>
    cases x with
    | nil => simp [ciPrefix] at h
    | cons c x' =>
      rw [ciPrefix, Bool.and_eq_true] at h
      have := ih h.2
      simp only [List.length_cons]
      omega

theorem tagNameEnd_subset {names : List (List Char)} :
    ∀ {x r : List Char}, tagNameEnd names x = some r → ∀ a ∈ r, a ∈ x := by
  induction names with
  | nil => intro x r h; exact absurd h (by simp [tagNameEnd])
  | cons nm nms ih =>
    intro x r h
    rw [tagNameEnd] at h
    by_cases hp : ciPrefix nm x = true
    · rw [if_pos hp] at h
      injection h with h1
      subst h1
      exact fun a ha => List.drop_subset _ _ ha
    · rw [if_neg hp] at h
      exact ih h

theorem tagNameEnd_seg {names : List (List Char)}
    (hne : ∀ nm ∈ names, ∀ ch ∈ nm, lcChar ch ≠ lcChar '>') (x rest : List Char) :
    tagNameEnd names (x ++ '>' :: rest)
      = (tagNameEnd names x).map (fun r => r ++ '>' :: rest) := by
  induction names with
  | nil => rfl
  | cons nm nms ih =>
    simp only [tagNameEnd]
    rw [ciPrefix_ext nm (hne nm (List.mem_cons_self _ _)) x rest]
    by_cases hp : ciPrefix nm x = true
    · rw [if_pos hp, if_pos hp]
      rw [List.drop_append_of_le_length (ciPrefix_length hp)]
      rfl
    · rw [if_neg hp, if_neg hp]
      exact ih fun nm' hnm' => hne nm' (List.mem_cons_of_mem _ hnm')

theorem tagNameEnd_nil_closeNames : tagNameEnd closeNames [] = none := by decide

theorem closeAfterLt_seg (b rest : List Char) (hb : ∀ x ∈ b, x ≠ '>') :
    closeAfterLt (b ++ '>' :: rest) = if closeBody b = true then some rest else none := by
  have hgt : isJsWs '>' = false := by decide
  have hnames : ∀ nm ∈ closeNames, ∀ ch ∈ nm, lcChar ch ≠ lcChar '>' := by decide
  cases b with
  | nil => rfl
  | cons b0 b1 =>
    by_cases hb0 : b0 = '/'
    · subst hb0
      have hlhs : closeAfterLt (('/' :: b1) ++ '>' :: rest)
          = match tagNameEnd closeNames ((b1 ++ '>' :: rest).dropWhile isJsWs) with
            | some cs3 => expectGt (cs3.dropWhile isJsWs)
            | none => none := rfl
      rw [hlhs, List.dropWhile_append]
      cases hdw : b1.dropWhile isJsWs with
      | nil =>
        rw [if_pos (by simp)]
        rw [show List.dropWhile isJsWs ('>' :: rest) = '>' :: rest from by
          simp [List.dropWhile, hgt]]
        rw [show ('>' :: rest) = [] ++ '>' :: rest from rfl, tagNameEnd_seg hnames [] rest,
          tagNameEnd_nil_closeNames]
        simp [closeBody, hdw, tagNameEnd_nil_closeNames]
      | cons d ds =>
        rw [if_neg (by simp)]
        rw [show (d :: ds) ++ '>' :: rest = (d :: ds) ++ '>' :: rest from rfl,
          tagNameEnd_seg hnames (d :: ds) rest]
        cases hte : tagNameEnd closeNames (d :: ds) with
        | none => simp [closeBody, hdw, hte]
        | some b3 =>
          simp only [Option.map_some']
          rw [List.dropWhile_append]
          cases hdw3 : b3.dropWhile isJsWs with
          | nil =>
            rw [if_pos (by simp)]
            rw [show List.dropWhile isJsWs ('>' :: rest) = '>' :: rest from by
              simp [List.dropWhile, hgt]]
            simp [closeBody, hdw, hte, hdw3, expectGt]
          | cons e es =>
            have hemem : e ∈ b1 := by
              have h1 : e ∈ b3.dropWhile isJsWs := hdw3 ▸ List.mem_cons_self e es
              have h2 : e ∈ b3 := (List.dropWhile_sublist _).subset h1
              have h3 : e ∈ d :: ds := tagNameEnd_subset hte e h2
              have h4 : e ∈ b1.dropWhile isJsWs := hdw ▸ h3
              exact (List.dropWhile_sublist _).subset h4
            have he : e ≠ '>' := hb e (List.mem_cons_of_mem _ hemem)
            rw [if_neg (by simp)]
            rw [List.cons_append, expectGt_ne e he]
            simp [closeBody, hdw, hte, hdw3]
    · have h1 : closeAfterLt ((b0 :: b1) ++ '>' :: rest) = none := by
        rw [List.cons_append]
        unfold closeAfterLt
        split
        · rename_i cs1 heq
          injection heq with hh _
          exact absurd hh hb0
        · rfl
      have h2 : closeBody (b0 :: b1) = false := by
        unfold closeBody
        split
        · rename_i cs1 heq
          injection heq with hh _
          exact absurd hh hb0
        · rfl
      rw [h1, h2]
      simp

theorem goodPiece_tagStep (bm : List Char → Bool) (p : HtmlPiece) (h : goodPiece p = true) :
    goodPiece (tagStep bm p) = true := by
  cases p with
  | chr c => exact h
  | tag b =>
    rw [tagStep]
    split
    · decide
    · exact h

theorem all_goodPiece_map_tagStep (bm : List Char → Bool) (ps : List HtmlPiece)
    (h : ps.all goodPiece = true) : (ps.map (tagStep bm)).all goodPiece = true := by
  rw [List.all_eq_true] at h ⊢
  intro p hp
  obtain ⟨q, hq, hqp⟩ := List.mem_map.mp hp
  exact hqp ▸ goodPiece_tagStep bm q (h q hq)

theorem tagScanF_copy (m : List Char → Option (List Char)) :
    ∀ (w : List Char), (∀ x ∈ w, x ≠ '<') → ∀ (fuel : Nat) (rest : List Char),
      w.length + rest.length ≤ fuel →
      tagScanF m fuel (w ++ rest) = w ++ tagScanF m (fuel - w.length) rest := by
  intro w
  induction w with
  | nil => intro _ fuel rest _; simp
  | cons a w' ih =>
    intro hw fuel rest hlen
    cases fuel with
    | zero => exact absurd hlen (by simp)
    | succ f =>
      have ha : a ≠ '<' := hw a (List.mem_cons_self _ _)
      simp only [List.cons_append, tagScanF, List.append_eq]
      rw [if_neg ha]
      rw [ih (fun x hx => hw x (List.mem_cons_of_mem _ hx)) f rest (by
        simp only [List.length_cons] at hlen
        omega)]
      simp only [List.length_cons, Nat.succ_sub_succ]

theorem render_cons_tag (b : List Char) (ps : List HtmlPiece) :
    render (.tag b :: ps) = '<' :: (b ++ '>' :: render ps) := by
  simp [render, renderPiece]

theorem tagScanF_render (m : List Char → Option (List Char)) (bm : List Char → Bool)
    (hseg : ∀ b rest, (∀ x ∈ b, x ≠ '>') →
      m (b ++ '>' :: rest) = if bm b = true then some rest else none) :
    ∀ (ps : List HtmlPiece), ps.all goodPiece = true → ∀ (fuel : Nat),
      (render ps).length ≤ fuel →
      tagScanF m fuel (render ps) = render (ps.map (tagStep bm)) := by
  intro ps
  induction ps with
  | nil =>
    intro _ fuel _
    cases fuel <;> rfl
  | cons p ps' ih =>
    intro hgood fuel hlen
    rw [List.all_cons, Bool.and_eq_true] at hgood
    obtain ⟨hp, hps⟩ := hgood
    cases p with
    | chr c =>
      have hc : (decide (c ≠ '<') && decide (c ≠ '>')) = true := hp
      rw [Bool.and_eq_true] at hc
      have hc1 : c ≠ '<' := by simpa using hc.1
      cases fuel with
      | zero =>
        exfalso
        have : 1 ≤ (render (HtmlPiece.chr c :: ps')).length := by
          simp [render, renderPiece]
        omega
      | succ f =>
        have hr : render (.chr c :: ps') = c :: render ps' := by
          simp [render, renderPiece]
        rw [hr]
        simp only [tagScanF]
        rw [if_neg hc1]
        rw [ih hps f (by rw [hr] at hlen; simpa using hlen)]
        simp [render, renderPiece, tagStep]
    | tag b =>
      have hb : (!b.isEmpty && b.all fun c => c ≠ '<' && c ≠ '>') = true := hp
      rw [Bool.and_eq_true] at hb
      have hbgt : ∀ x ∈ b, x ≠ '>' := by
        intro x hx
        have := List.all_eq_true.mp hb.2 x hx
        rw [Bool.and_eq_true] at this
        simpa using this.2
      have hblt : ∀ x ∈ b, x ≠ '<' := by
        intro x hx
        have := List.all_eq_true.mp hb.2 x hx
        rw [Bool.and_eq_true] at this
        simpa using this.1
      cases fuel with
      | zero =>
        exfalso
        have : 1 ≤ (render (HtmlPiece.tag b :: ps')).length := by
          simp [render, renderPiece]
        omega
      | succ f =>
        rw [render_cons_tag]
        have hlen' : (b ++ '>' :: render ps').length ≤ f := by
          rw [render_cons_tag] at hlen
          simpa using hlen
        simp only [tagScanF]
        rw [if_pos trivial]
        rw [hseg b (render ps') hbgt]
        by_cases hbm : bm b = true
        · rw [if_pos hbm]
          show ('\n' :: tagScanF m f (render ps'))
            = render (List.map (tagStep bm) (HtmlPiece.tag b :: ps'))
          rw [ih hps f (by simp at hlen'; omega)]
          simp [render, renderPiece, tagStep, hbm]
        · rw [if_neg hbm]
          have hbm' : bm b = false := by simpa using hbm
          have hw : ∀ x ∈ b ++ ['>'], x ≠ '<' := by
            intro x hx
            rcases List.mem_append.mp hx with h | h
            · exact hblt x h
            · rcases List.mem_singleton.mp h with rfl
              decide
          rw [show b ++ '>' :: render ps' = (b ++ ['>']) ++ render ps' by simp]
          rw [tagScanF_copy m (b ++ ['>']) hw f (render ps') (by simp at hlen' ⊢; omega)]
          rw [ih hps (f - (b ++ ['>']).length) (by simp at hlen' ⊢; omega)]
          simp [render, renderPiece, tagStep, hbm']

theorem findGt_seg (b rest : List Char) (hb : ∀ x ∈ b, x ≠ '>') :
    findGt (b ++ '>' :: rest) = some (b, rest) := by
  induction b with
  | nil => rfl
  | cons a b' ih =>
    have ha : a ≠ '>' := hb a (List.mem_cons_self _ _)
    rw [List.cons_append, findGt, if_neg ha, ih fun x hx => hb x (List.mem_cons_of_mem _ hx)]
    rfl

theorem stripTagsF_render :
    ∀ (ps : List HtmlPiece), ps.all goodPiece = true → ∀ (fuel : Nat),
      (render ps).length ≤ fuel →
      stripTagsF fuel (render ps) = render (ps.map stripStep) := by
  intro ps
  induction ps with
  | nil =>
    intro _ fuel _
    cases fuel <;> rfl
  | cons p ps' ih =>
    intro hgood fuel hlen
    rw [List.all_cons, Bool.and_eq_true] at hgood
    obtain ⟨hp, hps⟩ := hgood
    cases p with
    | chr c =>
      have hc : (decide (c ≠ '<') && decide (c ≠ '>')) = true := hp
      rw [Bool.and_eq_true] at hc
      have hc1 : c ≠ '<' := by simpa using hc.1
      cases fuel with
      | zero =>
        exfalso
        have : 1 ≤ (render (HtmlPiece.chr c :: ps')).length := by
          simp [render, renderPiece]
        omega
      | succ f =>
        have hr : render (.chr c :: ps') = c :: render ps' := by
          simp [render, renderPiece]
        rw [hr]
        simp only [stripTagsF]
        rw [if_neg hc1]
        rw [ih hps f (by rw [hr] at hlen; simpa using hlen)]
        simp [render, renderPiece, stripStep]
    | tag b =>
      have hb : (!b.isEmpty && b.all fun c => c ≠ '<' && c ≠ '>') = true := hp
      rw [Bool.and_eq_true] at hb
      have hbgt : ∀ x ∈ b, x ≠ '>' := by
        intro x hx
        have := List.all_eq_true.mp hb.2 x hx
        rw [Bool.and_eq_true] at this
        simpa using this.2
      have hbne : b.isEmpty = false := by simpa using hb.1
      cases fuel with
      | zero =>
        exfalso
        have : 1 ≤ (render (HtmlPiece.tag b :: ps')).length := by
          simp [render, renderPiece]
        omega
      | succ f =>
        rw [render_cons_tag]
        have hlen' : (b ++ '>' :: render ps').length ≤ f := by
          rw [render_cons_tag] at hlen
          simpa using hlen
        simp only [stripTagsF]
        rw [if_pos trivial]
        rw [findGt_seg b (render ps') hbgt]
        simp only [hbne, Bool.false_eq_true, if_false]
        rw [ih hps f (by simp at hlen'; omega)]
        simp [render, renderPiece, stripStep]

theorem jsTrimL_subset (l : List Char) : ∀ c ∈ jsTrimL l, c ∈ l := by
  intro c hc
  rw [jsTrimL, List.mem_reverse] at hc
  have h1 := (List.dropWhile_sublist _).subset hc
  rw [List.mem_reverse] at h1
  exact (List.dropWhile_sublist _).subset h1

theorem cleanTextS_mem (s : String) :
    ∀ c ∈ (cleanTextS s).data, c = ' ' ∨ (c ∈ s.data ∧ isJsWs c = false) := by
  intro c hc
  have hc1 : c ∈ (collapseWs s.data).map (fun c => if c = ' ' then ' ' else c) :=
    jsTrimL_subset _ c hc
  obtain ⟨d, hd, hdc⟩ := List.mem_map.mp hc1
  rcases collapseWsAux_mem false _ d hd with h | ⟨hmem, hws⟩
  · subst h
    rw [if_neg (by decide)] at hdc
    exact Or.inl hdc.symm
  · by_cases hnb : d = ' '
    · subst hnb
      exact absurd hws (by decide)
    · rw [if_neg hnb] at hdc
      subst hdc
      exact Or.inr ⟨hmem, hws⟩

theorem collapseNlF_mem : ∀ (fuel : Nat) (l : List Char),
    ∀ c ∈ collapseNlF fuel l, c = '\n' ∨ c ∈ l := by
  intro fuel
  induction fuel with
  | zero => intro l c hc; exact Or.inr hc
  | succ f ih =>
    intro l c hc
    cases l with
    | nil => simp [collapseNlF] at hc
    | cons a r =>
      rw [collapseNlF] at hc
      by_cases ha : a = '\n'
      · rw [if_pos ha] at hc
        dsimp only at hc
        by_cases hrun : (r.takeWhile isJsWs).contains '\n'
        · rw [if_pos hrun] at hc
          rcases List.mem_cons.mp hc with h | h
          · exact Or.inl h
          rcases List.mem_cons.mp h with h2 | h2
          · exact Or.inl h2
          rcases ih _ c h2 with h3 | h3
          · exact Or.inl h3
          · exact Or.inr (List.mem_cons_of_mem _ (List.drop_subset _ _ h3))
        · rw [if_neg hrun] at hc
          rcases List.mem_cons.mp hc with h | h
          · exact Or.inl h
          rcases ih r c h with h3 | h3
          · exact Or.inl h3
          · exact Or.inr (List.mem_cons_of_mem _ h3)
      · rw [if_neg ha] at hc
        rcases List.mem_cons.mp hc with h | h
        · exact Or.inr (h ▸ List.mem_cons_self _ _)
        rcases ih r c h with h3 | h3
        · exact Or.inl h3
        · exact Or.inr (List.mem_cons_of_mem _ h3)

theorem render_stripStep_mem : ∀ (ps : List HtmlPiece), ps.all goodPiece = true →
    ∀ c ∈ render (ps.map stripStep), c ≠ '<' ∧ c ≠ '>' := by
  intro ps
  induction ps with
  | nil => intro _ c hc; simp [render] at hc
  | cons p ps' ih =>
    intro h c hc
    rw [List.all_cons, Bool.and_eq_true] at h
    obtain ⟨hp, hps⟩ := h
    rw [List.map_cons] at hc
    rw [show render (stripStep p :: ps'.map stripStep)
        = renderPiece (stripStep p) ++ render (ps'.map stripStep) from rfl] at hc
    rcases List.mem_append.mp hc with h1 | h1
    · cases p with
      | chr c0 =>
        have hc0 : (decide (c0 ≠ '<') && decide (c0 ≠ '>')) = true := hp
        rw [Bool.and_eq_true] at hc0
        have h2 : c = c0 := by simpa [stripStep, renderPiece] using h1
        subst h2
        exact ⟨by simpa using hc0.1, by simpa using hc0.2⟩
      | tag b =>
        have h2 : c = ' ' := by simpa [stripStep, renderPiece] using h1
        subst h2
        exact ⟨by decide, by decide⟩
    · exact ih hps c h1

theorem replaceBr_render (ps : List HtmlPiece) (h : ps.all goodPiece = true) :
    replaceBr (render ps) = render (ps.map (tagStep brBody)) := by
  rw [replaceBr]
  exact tagScanF_render brAfterLt brBody brAfterLt_seg ps h _ le_rfl

theorem replaceClose_render (ps : List HtmlPiece) (h : ps.all goodPiece = true) :
    replaceClose (render ps) = render (ps.map (tagStep closeBody)) := by
  rw [replaceClose]
  exact tagScanF_render closeAfterLt closeBody closeAfterLt_seg ps h _ le_rfl

theorem stripTags_render (ps : List HtmlPiece) (h : ps.all goodPiece = true) :
    stripTags (render ps) = render (ps.map stripStep) := by
  rw [stripTags]
  exact stripTagsF_render ps h _ le_rfl

theorem htmlToText_mem_ws (html : String) :
    ∀ c ∈ (htmlToText html).data, c = ' ' ∨ isJsWs c = false := by
  intro c hc
  rw [htmlToText] at hc
  by_cases hemp : html = ""
  · rw [if_pos hemp] at hc
    simp at hc
  · rw [if_neg hemp] at hc
    have hc' : c ∈ (cleanTextS ⟨collapseNl
        (((stripTags (replaceClose (replaceBr html.data))).filter fun x => x ≠ '\r'))⟩).data := hc
    rcases cleanTextS_mem _ c hc' with h | ⟨_, hws⟩
    · exact Or.inl h
    · exact Or.inr hws

theorem ne_of_forall_not_contains (l : List Char) (c : Char) (h : ∀ x ∈ l, x ≠ c) :
    l.contains c = false := by
  cases hc : l.contains c
  · rfl
  · exact absurd rfl (h c (List.mem_of_elem_eq_true hc))

theorem htmlToText_render_nobracket (ps : List HtmlPiece) (h : ps.all goodPiece = true) :
    ∀ c ∈ (htmlToText ⟨render ps⟩).data, c ≠ '<' ∧ c ≠ '>' := by
  intro c hc
  rw [htmlToText] at hc
  by_cases hemp : (⟨render ps⟩ : String) = ""
  · rw [if_pos hemp] at hc
    simp at hc
  · rw [if_neg hemp] at hc
    have hc' : c ∈ (cleanTextS ⟨collapseNl
        (((stripTags (replaceClose (replaceBr (render ps)))).filter fun x => x ≠ '\r'))⟩).data := hc
    rcases cleanTextS_mem _ c hc' with hsp | ⟨hmem, _⟩
    · subst hsp
      exact ⟨by decide, by decide⟩
    · rcases collapseNlF_mem _ _ c hmem with hnl | hmem2
      · subst hnl
        exact ⟨by decide, by decide⟩
      · have hmem3 := List.mem_of_mem_filter hmem2
        rw [replaceBr_render ps h] at hmem3
        rw [replaceClose_render _ (all_goodPiece_map_tagStep brBody ps h)] at hmem3
        rw [stripTags_render _ (all_goodPiece_map_tagStep closeBody _
          (all_goodPiece_map_tagStep brBody ps h))] at hmem3
        exact render_stripStep_mem _ (all_goodPiece_map_tagStep closeBody _
          (all_goodPiece_map_tagStep brBody ps h)) c hmem3

/-- C8 counterexample: on the input `a < b`, whose `<` opens no tag, the
HTML-to-text conversion leaves the `<` character in the output, so the
produced description text does contain a residual `<`. -/
theorem claim_C8_counterexample :
    (htmlToText "a < b").data.contains '<' = true := by decide

/-- C8 (amended): the no-newline half of the round-trip holds universally —
for every HTML input the produced text contains no newline at all (the
final whitespace collapse turns every whitespace run into a single space),
hence no run of more than two consecutive newlines; the no-bracket half
holds for every well-tagged input, one woven from ordinary characters and
complete tags with non-empty bracket-free bodies: its conversion contains
no residual `<` or `>` character. -/
theorem claim_C8_amended :
    (∀ html : String, (htmlToText html).data.contains '\n' = false) ∧
    ∀ ps : List HtmlPiece, ps.all goodPiece = true →
      (htmlToText ⟨render ps⟩).data.contains '<' = false ∧
      (htmlToText ⟨render ps⟩).data.contains '>' = false := by
  constructor
  · intro html
    apply ne_of_forall_not_contains
    intro x hx hxn
    subst hxn
    rcases htmlToText_mem_ws html '\n' hx with h | h
    · exact absurd h (by decide)
    · exact absurd h (by decide)
  · intro ps hps
    constructor
    · exact ne_of_forall_not_contains _ _ fun x hx =>
        (htmlToText_render_nobracket ps hps x hx).1
    · exact ne_of_forall_not_contains _ _ fun x hx =>
        (htmlToText_render_nobracket ps hps x hx).2

/-- C8 witness: the well-tagged fragment `<p>hi<br></p>` satisfies the
well-taggedness hypothesis, and its conversion contains neither `<` nor
`>`. -/
theorem claim_C8_witness :
    ([HtmlPiece.tag ['p'], HtmlPiece.chr 'h', HtmlPiece.chr 'i',
      HtmlPiece.tag ['b', 'r'], HtmlPiece.tag ['/', 'p']].all goodPiece = true) ∧
    ((htmlToText ⟨render [HtmlPiece.tag ['p'], HtmlPiece.chr 'h', HtmlPiece.chr 'i',
        HtmlPiece.tag ['b', 'r'], HtmlPiece.tag ['/', 'p']]⟩).data.contains '<' = false ∧
      (htmlToText ⟨render [HtmlPiece.tag ['p'], HtmlPiece.chr 'h', HtmlPiece.chr 'i',
        HtmlPiece.tag ['b', 'r'], HtmlPiece.tag ['/', 'p']]⟩).data.contains '>' = false) :=
  ⟨by decide, claim_C8_amended.2 [HtmlPiece.tag ['p'], HtmlPiece.chr 'h', HtmlPiece.chr 'i',
    HtmlPiece.tag ['b', 'r'], HtmlPiece.tag ['/', 'p']] (by decide)⟩
